import Mathlib

/-!
Verification of the fpm package manager (dependency resolution and
installation engine) against its specification.

The Go sources are shallowly embedded below.  Pure helpers become Lean
functions; stateful code threads an explicit state record; network and
filesystem collaborators become explicit inputs (a `World` record).
External library collaborators (the `Masterminds/semver` version and
constraint parser and the `dominikbraun/graph` cycle-prevented digraph)
are modelled at their documented interface, as the specification
describes them; all repository code is translated from the source files.
-/

namespace Fpm

/-! ### Semantic versions (model of the Masterminds/semver collaborator)

The registry resolver (src/pkgmanager/fetch.go) delegates version
parsing, ordering and range checking to the external semver library.
We model versions as numeric MAJOR.MINOR.PATCH triples and ranges as
exact / `>=` / `^` constraints; a string not of that shape fails to
parse, which is all the claims need (prerelease forms are not modelled).
-/

/-- Split a character list on a separator character, like `strings.Split`. -/
def splitChars (sep : Char) : List Char → List (List Char)
  | [] => [[]]
  | c :: cs =>
    let rest := splitChars sep cs
    if c = sep then [] :: rest
    else
      match rest with
      | [] => [[c]]
      | s :: ss => (c :: s) :: ss

/-- Numeric value of a decimal digit character, `none` otherwise. -/
def digitVal (c : Char) : Option Nat :=
  if '0' ≤ c ∧ c ≤ '9' then some (c.toNat - 48) else none

/-- Accumulate decimal digits into a number; `none` on a non-digit. -/
def digitsToNatAux : List Char → Nat → Option Nat
  | [], acc => some acc
  | c :: cs, acc =>
    match digitVal c with
    | some d => digitsToNatAux cs (acc * 10 + d)
    | none => none

/-- Parse a non-empty all-digit character list as a number. -/
def digitsToNat : List Char → Option Nat
  | [] => none
  | c :: cs => digitsToNatAux (c :: cs) 0

/-- A parsed semantic version. -/
structure SemVer where
  major : Nat
  minor : Nat
  patch : Nat
deriving DecidableEq, Repr

/-- Strict ordering of semantic versions: lexicographic on
(major, minor, patch).  Models `Version.LessThan`/`GreaterThan`. -/
def svLt (a b : SemVer) : Bool :=
  if a.major < b.major then true
  else if b.major < a.major then false
  else if a.minor < b.minor then true
  else if b.minor < a.minor then false
  else decide (a.patch < b.patch)

/-- Non-strict ordering of semantic versions. -/
def svLe (a b : SemVer) : Bool := !(svLt b a)

/-- Parse `MAJOR.MINOR.PATCH` from a character list
(model of `semver.NewVersion`). -/
def parseSemverL (cs : List Char) : Option SemVer :=
  match splitChars '.' cs with
  | [a, b, c] => do
    let ma ← digitsToNat a
    let mi ← digitsToNat b
    let pa ← digitsToNat c
    pure ⟨ma, mi, pa⟩
  | _ => none

/-- Parse a version string (model of `semver.NewVersion`). -/
def parseSemver (s : String) : Option SemVer :=
  parseSemverL s.data

/-- A parsed range constraint (model of `semver.Constraints`). -/
inductive Constraint where
  | exact (v : SemVer)
  | ge (v : SemVer)
  | caret (v : SemVer)
deriving DecidableEq, Repr

/-- Parse a range string (model of `semver.NewConstraint`): `>=X.Y.Z`,
`^X.Y.Z` or a bare exact version; anything else (including the word
`latest`) fails to parse. -/
def parseConstraint (s : String) : Option Constraint :=
  match s.data with
  | '>' :: '=' :: rest => (parseSemverL rest).map .ge
  | '^' :: rest => (parseSemverL rest).map .caret
  | _ => (parseSemver s).map .exact

/-- Constraint satisfaction (model of `Constraints.Check`). -/
def checkConstraint : Constraint → SemVer → Bool
  | .exact c, v => v == c
  | .ge c, v => svLe c v
  | .caret c, v =>
    if 0 < c.major then c.major == v.major && svLe c v
    else if 0 < c.minor then v.major == 0 && c.minor == v.minor && svLe c v
    else v == c

/-! ### The sort used by `resolveVersion` (src/pkgmanager/fetch.go:92-102)

`resolveVersion` sorts the published version strings with
`sort.Slice(versions, less)` where `less i j` parses both strings and
returns `vi.GreaterThan(vj)`, and returns `false` whenever either side
fails to parse.  For slices of at most twelve elements Go's `sort.Slice`
(pdqsort) is exactly insertion sort, which we embed.  `insertRev` keeps
the already-sorted prefix reversed (head = rightmost element): the new
element moves left past a neighbour `y` exactly while `less x y`, as in
the Go inner loop. -/

/-- One step of Go's insertion sort: insert `x` into the reversed sorted
prefix, moving left while `less x y` holds against the neighbour `y`. -/
def insertRev (less : String → String → Bool) (x : String) : List String → List String
  | [] => [x]
  | y :: ys => if less x y then y :: insertRev less x ys else x :: y :: ys

/-- Go's insertion sort (the `sort.Slice` of src/pkgmanager/fetch.go for
short slices), as a pure function. -/
def sortSlice (less : String → String → Bool) (l : List String) : List String :=
  (l.foldl (fun acc x => insertRev less x acc) []).reverse

/-- The comparator passed to `sort.Slice` in `resolveVersion`
(src/pkgmanager/fetch.go:92-102): `false` if either string fails to
parse, otherwise `vi.GreaterThan(vj)`. -/
def semverLess (a b : String) : Bool :=
  match parseSemver a, parseSemver b with
  | some va, some vb => svLt vb va
  | _, _ => false

/-! ### Registry metadata and `resolveVersion` (src/pkgmanager/fetch.go) -/

/-- One version object of the registry metadata document.  `dist` is the
`dist` sub-object (string values). -/
structure VersionInfo where
  name : String
  version : String
  dist : List (String × String)
deriving DecidableEq

/-- A registry metadata document, as `resolveVersion` reads it: the
`dist-tags` object and the `versions` object (`none` models an absent or
non-object field, the failed type assertion in Go).  The `versions`
association list is kept in one concrete iteration order; Go map
iteration order is unspecified, so a claim about every document must
hold for every order. -/
structure Metadata where
  distTags : Option (List (String × String))
  versions : Option (List (String × VersionInfo))
deriving DecidableEq

/-- The published version strings, in iteration order
(src/pkgmanager/fetch.go:84-89). -/
def versionKeys (md : Metadata) : List String :=
  match md.versions with
  | none => []
  | some vm => vm.map Prod.fst

/-- Errors of `resolveVersion` (src/pkgmanager/fetch.go:107,120). -/
inductive ResolveErr where
  | invalidRange (r : String)
  | noMatchingVersion (r : String)
deriving DecidableEq, Repr

/-- The selection predicate of the loop at src/pkgmanager/fetch.go:110-118:
skip versions that fail to parse, otherwise check the constraint. -/
def satisfiesB (c : Constraint) (v : String) : Bool :=
  match parseSemver v with
  | none => false
  | some sv => checkConstraint c sv

/-- Embedding of `resolveVersion` (src/pkgmanager/fetch.go:75-121):
a `latest` range returns the `latest` dist-tag when present (falling
through to constraint parsing when absent); otherwise the version keys
are sorted descending with the partial comparator and the first
satisfying parseable one is returned. -/
def resolveVersion (md : Metadata) (versionRange : String) : Except ResolveErr String :=
  match (if versionRange = "latest" then md.distTags.bind (fun tags => tags.lookup "latest") else none) with
  | some latest => .ok latest
  | none =>
    match parseConstraint versionRange with
    | none => .error (.invalidRange versionRange)
    | some c =>
      match (sortSlice semverLess (versionKeys md)).find? (satisfiesB c) with
      | some v => .ok v
      | none => .error (.noMatchingVersion versionRange)

/-! ### Archive download (src/pkgmanager/download.go)

`DownloadPackage` issues one GET, streams the body to
`destDir/filepath.Base(url)` while hashing it with SHA-1, and compares
the lowercase hex digest to the expected shasum with plain string
equality.  The HTTP response and the SHA-1 compression function are
collaborators, passed as explicit inputs. -/

/-- An HTTP response for a tarball URL: transport failure, or a status
code with a body (a byte list). -/
inductive HttpResp where
  | failed
  | status (code : Nat) (body : List Nat)
deriving DecidableEq

/-- Lowercase hexadecimal digit character. -/
def hexDigit (n : Nat) : Char :=
  if n < 10 then Char.ofNat (48 + n) else Char.ofNat (87 + n)

/-- Lowercase hex rendering of a byte list, the
`fmt.Sprintf("%x", hasher.Sum(nil))` of src/pkgmanager/download.go:45. -/
def hexLower (bytes : List Nat) : String :=
  ⟨bytes.flatMap (fun b => [hexDigit (b / 16 % 16), hexDigit (b % 16)])⟩

/-- Character-level lowercasing of a string. -/
def lowerStr (s : String) : String := ⟨s.data.map Char.toLower⟩

/-- Case-insensitive (lowercase-normalised) string equality, the
comparison named by the claim about hash verification. -/
def lowerEq (a b : String) : Bool := lowerStr a == lowerStr b

/-- Last path component of a URL or path (`filepath.Base`). -/
def baseName (s : String) : String :=
  ⟨s.data.foldl (fun acc c => if c == '/' then [] else acc ++ [c]) []⟩

/-- Join two path components (`filepath.Join`, for already-clean parts). -/
def joinPath (a b : String) : String := a ++ "/" ++ b

/-- Errors of `DownloadPackage` (src/pkgmanager/download.go:16-48). -/
inductive DownloadErr where
  | netFailed
  | badStatus (code : Nat)
  | checksumMismatch (expected got : String)
deriving DecidableEq

/-- Embedding of `DownloadPackage` (src/pkgmanager/download.go:14-51):
`resp` is the response of `http.Get(tarballURL)` and `digest` the SHA-1
compression oracle.  A non-200 status fails; otherwise the body is
written to `destDir/Base(url)` and the computed lowercase hex digest is
compared to `expectedShasum` with exact string equality. -/
def DownloadPackage (resp : HttpResp) (digest : List Nat → List Nat)
    (tarballURL expectedShasum destDir : String) : Except DownloadErr String :=
  match resp with
  | .failed => .error .netFailed
  | .status code body =>
    if code ≠ 200 then .error (.badStatus code)
    else
      let destPath := joinPath destDir (baseName tarballURL)
      let calculated := hexLower (digest body)
      if calculated ≠ expectedShasum then .error (.checksumMismatch expectedShasum calculated)
      else .ok destPath

/-! ### Archive extraction (src/pkgmanager/extract.go)

`ExtractTarball` creates `destDir/packageName`, opens the tarball,
registers a deferred unconditional removal of the tarball file, and
iterates the tar entries: directory entries become `MkdirAll` with the
recorded mode, regular files are written after ensuring the parent
directory, and any other entry type aborts with an error.  Every entry
name first has the literal prefix `"package/"` trimmed
(src/pkgmanager/extract.go:56).  The model assumes the initial
`MkdirAll` and `Open` succeed (the tarball was just written by the
downloader) and records filesystem effects as an operation list. -/

/-- A tar archive entry. -/
inductive TarEntry where
  | dir (name : String) (mode : Nat)
  | file (name : String) (content : String)
  | other (name : String) (typeflag : Nat)
deriving DecidableEq

/-- Entry name of a tar entry. -/
def TarEntry.entryName : TarEntry → String
  | .dir n _ => n
  | .file n _ => n
  | .other n _ => n

/-- Embedding of `strings.TrimPrefix`: drop `pre` when it is a prefix of
`s`, otherwise return `s` unchanged. -/
def trimPre (s pre : String) : String :=
  if pre.data.isPrefixOf s.data then ⟨s.data.drop pre.data.length⟩ else s

/-- Spec-words definition, for comparison only: remove "the first
(root-wrapper) path segment" from an entry path, i.e. drop everything up
to and including the first slash (a path without a slash is returned
unchanged). -/
def dropFirstSegment (s : String) : String :=
  match s.data.dropWhile (fun c => !(c == '/')) with
  | [] => s
  | _ :: t => ⟨t⟩

/-- Parent directory of a path (`filepath.Dir`, for slash-containing
paths). -/
def dirOf (s : String) : String :=
  ⟨(((s.data.reverse.dropWhile (fun c => !(c == '/'))).drop 1)).reverse⟩

/-- A recorded filesystem effect of extraction.  `removeFile` carries
whether the removal itself succeeded (`os.Remove` failures are only
logged). -/
inductive FsOp where
  | mkdirAll (path : String) (mode : Nat)
  | writeFile (path : String) (content : String)
  | removeFile (path : String) (ok : Bool)
deriving DecidableEq

/-- Errors of `ExtractTarball` (src/pkgmanager/extract.go:38,85). -/
inductive ExtractErr where
  | notGzip
  | unsupportedEntry (typeflag : Nat)
deriving DecidableEq

/-- The entry loop of `ExtractTarball`
(src/pkgmanager/extract.go:45-87): process entries in order, stopping at
the first unsupported entry type. -/
def extractEntries (packageDir : String) : List TarEntry → Except ExtractErr Unit × List FsOp
  | [] => (.ok (), [])
  | .dir name mode :: es =>
    let (r, ops) := extractEntries packageDir es
    (r, .mkdirAll (joinPath packageDir (trimPre name "package/")) mode :: ops)
  | .file name content :: es =>
    let path := joinPath packageDir (trimPre name "package/")
    let (r, ops) := extractEntries packageDir es
    (r, .mkdirAll (dirOf path) 511 :: .writeFile path content :: ops)
  | .other _ tf :: _ => (.error (.unsupportedEntry tf), [])

/-- Embedding of `ExtractTarball` (src/pkgmanager/extract.go:15-90).
`entries` is the parse of the downloaded archive (`none` models a
`gzip.NewReader` failure).  The deferred removal of the tarball file is
emitted on every path, after the initial directory creation;
`removeOk` says whether that removal succeeds. -/
def extractTarball (tarballPath destDir packageName : String)
    (entries : Option (List TarEntry)) (removeOk : Bool) :
    Except ExtractErr Unit × List FsOp :=
  let packageDir := joinPath destDir packageName
  match entries with
  | none => (.error .notGzip, [.mkdirAll packageDir 511, .removeFile tarballPath removeOk])
  | some es =>
    let (r, ops) := extractEntries packageDir es
    (r, .mkdirAll packageDir 511 :: (ops ++ [.removeFile tarballPath removeOk]))

/-! ### Registry fetch (src/pkgmanager/fetch.go:23-72)

`FetchPackageInfo` GETs the metadata document for a package name,
resolves the requested range, and unmarshals the chosen version object
into a `PackageInfo`.  The type assertion
`metadata["versions"].(map[string]interface{})` at
src/pkgmanager/fetch.go:59 has no `ok` guard, so a document without a
`versions` object panics there; a resolved version missing from the map
leaves the zero-value `PackageInfo` and returns it with a nil error. -/

/-- The `PackageInfo` struct of src/pkgmanager/fetch.go:16-20. -/
structure PackageInfo where
  name : String
  version : String
  dist : List (String × String)
deriving DecidableEq

/-- The zero value of `PackageInfo`. -/
def emptyPackageInfo : PackageInfo := ⟨"", "", []⟩

/-- Errors of `FetchPackageInfo`. -/
inductive FetchErr where
  | httpFailed
  | resolve (e : ResolveErr)
deriving DecidableEq

/-- Result of `FetchPackageInfo`: a value with nil error, an error, or a
runtime panic. -/
inductive FetchRes where
  | ok (info : PackageInfo)
  | err (e : FetchErr)
  | panicked
deriving DecidableEq

/-- Embedding of `FetchPackageInfo` (src/pkgmanager/fetch.go:23-72) over
the registry contents (name ↦ metadata document; an absent name models
a failed or non-200 registry GET). -/
def FetchPackageInfo (registry : List (String × Metadata)) (packageName version : String) :
    FetchRes :=
  match registry.lookup packageName with
  | none => .err .httpFailed
  | some md =>
    match resolveVersion md version with
    | .error e => .err (.resolve e)
    | .ok resolved =>
      match md.versions with
      | none => .panicked
      | some vm =>
        match vm.lookup resolved with
        | none => .ok emptyPackageInfo
        | some vi => .ok ⟨vi.name, vi.version, vi.dist⟩

/-! ### The dependency graph (the `dominikbraun/graph` collaborator)

The graph is created in src/main.go:38 as a directed, cycle-prevented
graph over package-name strings.  The library is external, so its
operations are modelled from the specification's contract (§4.4):
`addVertex` fails only when the vertex exists; `addEdge` requires both
endpoints, rejects an existing edge, and rejects an edge whose addition
would close a directed cycle, i.e. one whose target already reaches its
source.  Reachability is computed as a saturating expansion of the set
of nodes reachable from the source. -/

/-- One expansion step: add every edge target whose source is already in
the set. -/
def stepSet (E : List (String × String)) (S : Finset String) : Finset String :=
  S ∪ ((E.filter (fun e => decide (e.1 ∈ S))).map Prod.snd).toFinset

/-- Iterated expansion from the singleton `{s}`. -/
def iterN (E : List (String × String)) (s : String) : Nat → Finset String
  | 0 => {s}
  | n + 1 => stepSet E (iterN E s n)

/-- An upper bound on the number of distinct nodes the expansion can
produce: `s` together with all edge targets. -/
def reachBound (E : List (String × String)) (s : String) : Nat :=
  (insert s (E.map Prod.snd).toFinset).card

/-- Decision procedure: `t` is reachable from `s` along `E` (in zero or
more steps). -/
def reachableB (E : List (String × String)) (s t : String) : Bool :=
  decide (t ∈ iterN E s (reachBound E s))

/-- The graph state: vertex and edge lists (insertion at the front). -/
structure Graph where
  vertices : List String
  edges : List (String × String)
deriving DecidableEq

/-- The empty graph of src/main.go:38. -/
def emptyGraph : Graph := ⟨[], []⟩

/-- Errors of the graph operations. -/
inductive GraphErr where
  | vertexAlreadyExists
  | vertexNotFound
  | edgeAlreadyExists
  | edgeCreatesCycle
deriving DecidableEq

/-- Model of `AddVertex`: adding an existing vertex is an error the
callers tolerate. -/
def addVertex (g : Graph) (n : String) : Except GraphErr Graph :=
  if n ∈ g.vertices then .error .vertexAlreadyExists
  else .ok { g with vertices := n :: g.vertices }

/-- Model of `AddEdge` on the cycle-prevented graph: both endpoints must
exist, a duplicate edge is rejected, and an edge whose target already
reaches its source is rejected as closing a cycle. -/
def addEdge (g : Graph) (f t : String) : Except GraphErr Graph :=
  if f ∉ g.vertices then .error .vertexNotFound
  else if t ∉ g.vertices then .error .vertexNotFound
  else if (f, t) ∈ g.edges then .error .edgeAlreadyExists
  else if reachableB g.edges t f then .error .edgeCreatesCycle
  else .ok { g with edges := (f, t) :: g.edges }

/-- A graph call, for stating the invariant over arbitrary call
sequences. -/
inductive GraphOp where
  | vertex (n : String)
  | edge (f t : String)

/-- Apply one graph call; a rejected call leaves the graph unchanged
(the callers ignore the error). -/
def applyOp (g : Graph) : GraphOp → Graph
  | .vertex n =>
    match addVertex g n with
    | .ok g2 => g2
    | .error _ => g
  | .edge f t =>
    match addEdge g f t with
    | .ok g2 => g2
    | .error _ => g

/-- Apply a sequence of graph calls. -/
def applyOps (g : Graph) (ops : List GraphOp) : Graph := ops.foldl applyOp g

/-- The edge relation of an edge list. -/
def edgeRel (E : List (String × String)) (a b : String) : Prop := (a, b) ∈ E

/-- A graph is acyclic when no edge can be closed into a directed cycle:
there is no edge `(a, b)` with a path from `b` back to `a`. -/
def Acyclic (g : Graph) : Prop :=
  ∀ a b, edgeRel g.edges a b → ¬ Relation.ReflTransGen (edgeRel g.edges) b a

/-! ### The install orchestrator (src/utils/utils.go)

`installPackage` (src/utils/utils.go:81-176) guards on the process-wide
in-progress set, on the per-run visited set and on the presence of the
package directory under the install root, then fetches the registry
metadata, downloads and extracts the tarball, adds the vertex, reads the
extracted package's own `package.json`, and walks its dependencies via
`processPackageJson` (src/utils/utils.go:309-343).

The model: `World` fixes the collaborators (registry contents, HTTP
responses for tarball URLs, the SHA-1 oracle, the parse of each tarball
and the dependency section of the `package.json` it contains).  `St`
carries the mutable state: the graph, the in-progress set, the visited
set, the install tree (package name ↦ dependency section of its
`package.json`, `none` when the directory exists without a readable
`package.json`) and a chronological trace of network and extraction
events.  Recursion is fuelled; fuel exhaustion is a distinguished
outcome.  The nested-workspace scan `findAdditionalPackageJsons`
(src/utils/utils.go:162-173) is modelled as finding nothing (no
workspace-style packages in modelled worlds), and filesystem metadata
operations are assumed to succeed. -/

/-- The collaborators of one install run. -/
structure World where
  registry : List (String × Metadata)
  http : String → HttpResp
  digest : List Nat → List Nat
  entriesOf : String → Option (List TarEntry)
  manifestOf : String → Option (List (String × String))

/-- A recorded network or extraction event. -/
inductive Event where
  | fetchInfo (name : String)
  | download (name url : String)
  | extract (name : String)
deriving DecidableEq

/-- The mutable state threaded through one install run. -/
structure St where
  graph : Graph
  installing : List String
  visited : List String
  disk : List (String × Option (List (String × String)))
  events : List Event
deriving DecidableEq

/-- Errors returned by `installPackage`. -/
inductive IErr where
  | fetchFailed (e : FetchErr)
  | downloadFailed (e : DownloadErr)
  | extractFailed (e : ExtractErr)
deriving DecidableEq

/-- The result of `installPackage`: a version string with nil error, an
error, a runtime panic, or fuel exhaustion (never reached in the runs
below). -/
inductive Outcome where
  | ok (version : String)
  | err (e : IErr)
  | panicked
  | outOfFuel
deriving DecidableEq

/-- `AddVertex` as every call site uses it: an already-existing vertex
is tolerated (src/utils/utils.go:112,146,316). -/
def addVertexTol (g : Graph) (n : String) : Graph :=
  match addVertex g n with
  | .ok g2 => g2
  | .error _ => g

/-- The dependency loop of `processPackageJson`
(src/utils/utils.go:315-340): for each declared dependency add its
vertex, attempt the edge, and on any edge rejection `continue` to the
next dependency; on success recurse into `installPackage` (passed in as
`inst`), logging (and ignoring) its error. -/
def processPackageJson (inst : String → String → St → Outcome × St) (packageName : String) :
    List (String × String) → St → St
  | [], st => st
  | (depName, depVersion) :: deps, st =>
    let st := { st with graph := addVertexTol st.graph depName }
    match addEdge st.graph packageName depName with
    | .error _ => processPackageJson inst packageName deps st
    | .ok g2 =>
      let p := inst depName depVersion { st with graph := g2 }
      processPackageJson inst packageName deps p.2

/-- The body of `installPackage` after the in-progress guard
(src/utils/utils.go:97-175): visited guard, install-tree existence
check (a bare `os.Stat` on the package directory), registry fetch, the
unchecked `Dist` type assertions, download, extraction, vertex
insertion, and the walk of the extracted package's own manifest.
`inst` is the recursive `installPackage` used for dependencies. -/
def installBody (w : World) (inst : String → String → St → Outcome × St)
    (packageName packageVersion : String) (st : St) : Outcome × St :=
  if packageName ∈ st.visited then (.ok packageVersion, st)
  else
    let st := { st with visited := packageName :: st.visited }
    if (st.disk.lookup packageName).isSome then
      (.ok packageVersion, { st with graph := addVertexTol st.graph packageName })
    else
      let st := { st with events := st.events ++ [.fetchInfo packageName] }
      match FetchPackageInfo w.registry packageName packageVersion with
      | .err e => (.err (.fetchFailed e), st)
      | .panicked => (.panicked, st)
      | .ok info =>
        match info.dist.lookup "tarball" with
        | none => (.panicked, st)
        | some tarballURL =>
          match info.dist.lookup "shasum" with
          | none => (.panicked, st)
          | some expectedShasum =>
            let st := { st with events := st.events ++ [.download packageName tarballURL] }
            match DownloadPackage (w.http tarballURL) w.digest tarballURL expectedShasum "./node_modules" with
            | .error e => (.err (.downloadFailed e), st)
            | .ok tarballPath =>
              let st := { st with events := st.events ++ [.extract packageName] }
              match (extractTarball tarballPath "./node_modules" packageName (w.entriesOf tarballURL) true).1 with
              | .error e => (.err (.extractFailed e), st)
              | .ok _ =>
                let st := { st with disk := (packageName, w.manifestOf tarballURL) :: st.disk }
                let st := { st with graph := addVertexTol st.graph packageName }
                match w.manifestOf tarballURL with
                | none => (.ok info.version, st)
                | some deps => (.ok info.version, processPackageJson inst packageName deps st)

/-- Embedding of `installPackage` (src/utils/utils.go:81-176): the
in-progress guard returns the requested version unchanged; otherwise the
name is marked in progress, the body runs (recursing with one unit of
fuel less), and the deferred `delete(installingPackages, packageName)`
removes the mark on every return path. -/
def installPackage (w : World) : Nat → String → String → St → Outcome × St
  | 0, _, _, st => (.outOfFuel, st)
  | fuel + 1, packageName, packageVersion, st =>
    if packageName ∈ st.installing then (.ok packageVersion, st)
    else
      let st1 := { st with installing := packageName :: st.installing }
      let p := installBody w (fun n v s => installPackage w fuel n v s) packageName packageVersion st1
      (p.1, { p.2 with installing := p.2.installing.erase packageName })

/-- Embedding of `RunInstallPackage` (src/utils/utils.go:28-44): each
top-level call makes a fresh `visited` map. -/
def runInstallPackage (w : World) (fuel : Nat) (packageName packageVersion : String) (st : St) :
    Outcome × St :=
  installPackage w fuel packageName packageVersion { st with visited := [] }

/-- The state at the start of an install run: empty graph, empty dedup
state, a given install tree, no events. -/
def initSt (disk : List (String × Option (List (String × String)))) : St :=
  ⟨emptyGraph, [], [], disk, []⟩

/-- The dependency loop of `isPackageAndDependenciesInNodeModules`:
every declared dependency must pass the check `chk`, sharing the
threaded visited list. -/
def isPkgAll (chk : String → List String → Bool × List String) :
    List (String × String) → List String → Bool × List String
  | [], vis => (true, vis)
  | d :: ds, vis =>
    let p := chk d.1 vis
    if p.1 then isPkgAll chk ds p.2 else (false, p.2)

/-- Embedding of `isPackageAndDependenciesInNodeModules`
(src/unnamed/part_002:165-212), the recursive full-subtree presence
check of the alternate `utils.go`: the package directory must exist, its
`package.json` must be readable, and every declared dependency must
recursively pass the same check; the visited list breaks declaration
cycles and is threaded through the dependency loop. -/
def isPackageAndDeps (disk : List (String × Option (List (String × String)))) :
    Nat → String → List String → Bool × List String
  | 0, _, vis => (false, vis)
  | fuel + 1, packageName, vis =>
    if packageName ∈ vis then (true, vis)
    else
      let vis := packageName :: vis
      match disk.lookup packageName with
      | none => (false, vis)
      | some none => (false, vis)
      | some (some deps) => isPkgAll (fun n v => isPackageAndDeps disk fuel n v) deps vis

/-- Count the download events for a package name. -/
def countDownloads (evs : List Event) (n : String) : Nat :=
  evs.countP (fun e =>
    match e with
    | .download m _ => m == n
    | _ => false)

/-- Count the extraction events for a package name. -/
def countExtracts (evs : List Event) (n : String) : Nat :=
  evs.countP (fun e =>
    match e with
    | .extract m => m == n
    | _ => false)

/-! ### Concrete and parametric worlds used by the claim instances -/

/-- Registry metadata publishing a single version `1.0.0` for a package
named `B`. -/
def mdB : Metadata :=
  ⟨some [("latest", "1.0.0")], some [("1.0.0", ⟨"B", "1.0.0", [("tarball", "ub"), ("shasum", "ab")]⟩)]⟩

/-- A world where `B` is published and downloadable: every tarball GET
returns status 200 with body `[171]`, whose (oracle) SHA-1 is `[171]`,
hex `ab`; tarballs parse to an empty entry list and contain a
`package.json` with no dependencies. -/
def wC2 : World :=
  ⟨[("B", mdB)], fun _ => .status 200 [171], fun b => b, fun _ => some [], fun _ => some []⟩

/-- An install tree holding only package `A`, whose own `package.json`
declares a dependency on the absent package `B`. -/
def partialDisk : List (String × Option (List (String × String))) :=
  [("A", some [("B", "^1.0.0")])]

/-- A world with two packages whose manifests declare a name-level
dependency cycle: the `package.json` inside the tarball `ua` of package
`a` depends on `b` and the one inside `ub` of package `b` depends on
`a`.  Both tarballs download with a matching checksum and extract
cleanly. -/
def cycWorld (a b : String) : World :=
  ⟨[(a, ⟨some [("latest", "1.0.0")], some [("1.0.0", ⟨a, "1.0.0", [("tarball", "ua"), ("shasum", "ab")]⟩)]⟩),
    (b, ⟨some [("latest", "2.0.0")], some [("2.0.0", ⟨b, "2.0.0", [("tarball", "ub"), ("shasum", "ab")]⟩)]⟩)],
   fun _ => .status 200 [171], fun x => x, fun _ => some [],
   fun u => if u == "ua" then some [(b, "latest")] else some [(a, "latest")]⟩

/-- Registry metadata for a package `p` publishing only version
`1.2.3`. -/
def mdP : Metadata :=
  ⟨some [("latest", "1.2.3")], some [("1.2.3", ⟨"p", "1.2.3", [("tarball", "u"), ("shasum", "ab")]⟩)]⟩

/-- A world publishing `p` at `1.2.3` with a downloadable, dependency-free
tarball. -/
def wP : World :=
  ⟨[("p", mdP)], fun _ => .status 200 [171], fun b => b, fun _ => some [], fun _ => some []⟩

/-- Registry metadata whose `latest` dist-tag names version `9.9.9`,
which is missing from the `versions` map. -/
def mdQ : Metadata := ⟨some [("latest", "9.9.9")], some []⟩

/-- A world serving `mdQ` for the package name `q`. -/
def wQ : World :=
  ⟨[("q", mdQ)], fun _ => .status 200 [171], fun b => b, fun _ => some [], fun _ => some []⟩

/-- A world publishing `p` at `1.2.3` whose served tarball body hashes
to `ab` while the registry's `shasum` says `ff`: an integrity mismatch. -/
def wPbad : World :=
  ⟨[("p", ⟨some [("latest", "1.2.3")], some [("1.2.3", ⟨"p", "1.2.3", [("tarball", "u"), ("shasum", "ff")]⟩)]⟩)],
   fun _ => .status 200 [171], fun b => b, fun _ => some [], fun _ => some []⟩

/-- Whether a tar entry is of a supported type (directory or regular
file). -/
def okEntry : TarEntry → Bool
  | .other _ _ => false
  | _ => true

/-- The filesystem trace one supported entry contributes
(src/pkgmanager/extract.go:59-86). -/
def entryOps (packageDir : String) : TarEntry → List FsOp
  | .dir n m => [.mkdirAll (joinPath packageDir (trimPre n "package/")) m]
  | .file n c =>
    [.mkdirAll (dirOf (joinPath packageDir (trimPre n "package/"))) 511,
     .writeFile (joinPath packageDir (trimPre n "package/")) c]
  | .other _ _ => []

/-- The registry metadata of the resolution counterexample: three
published versions whose map iteration order happens to be `1.0.0`,
`garbage`, `2.0.0` (Go map iteration order is unspecified, so every
order occurs). -/
def mdBad : Metadata :=
  ⟨none, some [("1.0.0", ⟨"p", "1.0.0", []⟩), ("garbage", ⟨"p", "garbage", []⟩), ("2.0.0", ⟨"p", "2.0.0", []⟩)]⟩

end Fpm

deriving instance DecidableEq for Except

namespace Fpm

/-! ## Order facts about the semver comparator -/

/-- Characterisation of the strict semver order as lexicographic
comparison. -/
theorem svLt_iff (a b : SemVer) :
    svLt a b = true ↔
      a.major < b.major ∨ (a.major = b.major ∧
        (a.minor < b.minor ∨ (a.minor = b.minor ∧ a.patch < b.patch))) := by
  unfold svLt
  split_ifs <;> simp <;> omega

/-- Negative characterisation of the strict semver order. -/
theorem svLt_false_iff (a b : SemVer) :
    svLt a b = false ↔
      ¬(a.major < b.major ∨ (a.major = b.major ∧
        (a.minor < b.minor ∨ (a.minor = b.minor ∧ a.patch < b.patch)))) := by
  rw [Bool.eq_false_iff]
  exact not_congr (svLt_iff a b)

/-- The strict semver order is irreflexive. -/
theorem svLt_irrefl (a : SemVer) : svLt a a = false := by
  rw [svLt_false_iff]
  omega

/-- The strict semver order is asymmetric. -/
theorem svLt_asymm {a b : SemVer} (h : svLt a b = true) : svLt b a = false := by
  rw [svLt_iff] at h
  rw [svLt_false_iff]
  omega

/-- The strict semver order is negatively transitive. -/
theorem svLt_negtrans {a b c : SemVer} (h1 : svLt b a = false) (h2 : svLt c b = false) :
    svLt c a = false := by
  rw [svLt_false_iff] at h1 h2 ⊢
  omega

/-- The sort comparator never holds reflexively. -/
theorem semverLess_irrefl (v : String) : semverLess v v = false := by
  unfold semverLess
  cases parseSemver v with
  | none => rfl
  | some sv => simp [svLt_irrefl]

/-- The sort comparator holds exactly when both sides parse and the
first is strictly greater. -/
theorem semverLess_eq_true_iff (a b : String) :
    semverLess a b = true ↔
      ∃ va vb, parseSemver a = some va ∧ parseSemver b = some vb ∧ svLt vb va = true := by
  unfold semverLess
  cases ha : parseSemver a <;> cases hb : parseSemver b <;> simp

/-- The sort comparator is asymmetric. -/
theorem semverLess_asymm {a b : String} (h : semverLess a b = true) : semverLess b a = false := by
  obtain ⟨va, vb, ha, hb, hlt⟩ := (semverLess_eq_true_iff a b).1 h
  unfold semverLess
  rw [hb, ha]
  exact svLt_asymm hlt

/-- The sort comparator is negatively transitive on parseable version
strings. -/
theorem semverLess_negtrans {a b c : String}
    (pa : (parseSemver a).isSome) (pb : (parseSemver b).isSome) (pc : (parseSemver c).isSome)
    (h1 : semverLess a b = false) (h2 : semverLess b c = false) : semverLess a c = false := by
  obtain ⟨va, hva⟩ := Option.isSome_iff_exists.1 pa
  obtain ⟨vb, hvb⟩ := Option.isSome_iff_exists.1 pb
  obtain ⟨vc, hvc⟩ := Option.isSome_iff_exists.1 pc
  have h1x : svLt vb va = false := by
    have hx := h1
    unfold semverLess at hx
    rw [hva, hvb] at hx
    exact hx
  have h2x : svLt vc vb = false := by
    have hx := h2
    unfold semverLess at hx
    rw [hvb, hvc] at hx
    exact hx
  unfold semverLess
  rw [hva, hvc]
  exact svLt_negtrans h1x h2x

/-! ## The insertion sort of `resolveVersion` -/

/-- Membership in an insertion step. -/
theorem mem_insertRev {less : String → String → Bool} {x z : String} {l : List String} :
    z ∈ insertRev less x l ↔ z = x ∨ z ∈ l := by
  induction l with
  | nil => simp [insertRev]
  | cons y ys ih =>
    unfold insertRev
    cases h : less x y
    · simp [h, ih, List.mem_cons]
    · simp [h, ih, List.mem_cons]
      tauto

/-- An insertion step is a permutation of consing. -/
theorem perm_insertRev (less : String → String → Bool) (x : String) (l : List String) :
    List.Perm (insertRev less x l) (x :: l) := by
  induction l with
  | nil => simp [insertRev]
  | cons y ys ih =>
    unfold insertRev
    cases h : less x y
    · simp [h]
    · simp only [h, if_pos]
      exact (ih.cons y).trans (List.Perm.swap x y ys)

/-- An insertion step preserves the sortedness invariant when the
inserted element and the accumulator are all parseable (the reversed
accumulator is pairwise not-greater). -/
theorem pairwise_insertRev {x : String} {acc : List String}
    (hx : (parseSemver x).isSome) (hacc : ∀ z ∈ acc, (parseSemver z).isSome)
    (hp : acc.Pairwise (fun a b => semverLess a b = false)) :
    (insertRev semverLess x acc).Pairwise (fun a b => semverLess a b = false) := by
  induction acc with
  | nil => simp [insertRev]
  | cons y ys ih =>
    rw [List.pairwise_cons] at hp
    obtain ⟨hy, hys⟩ := hp
    have hyp : (parseSemver y).isSome := hacc y (List.mem_cons_self y ys)
    have hysp : ∀ z ∈ ys, (parseSemver z).isSome :=
      fun z hz => hacc z (List.mem_cons_of_mem y hz)
    unfold insertRev
    cases h : semverLess x y
    · simp only [h, Bool.false_eq_true, if_false]
      refine List.Pairwise.cons ?_ (List.Pairwise.cons hy hys)
      intro z hz
      rcases List.mem_cons.1 hz with rfl | hz2
      · exact h
      · exact semverLess_negtrans hx hyp (hysp z hz2) h (hy z hz2)
    · simp only [h, if_pos]
      refine List.Pairwise.cons ?_ (ih hysp hys)
      intro z hz
      rcases mem_insertRev.1 hz with rfl | hz2
      · exact semverLess_asymm h
      · exact hy z hz2

/-- The sorting fold is a permutation of the input prepended to the
accumulator. -/
theorem perm_sortFold (less : String → String → Bool) (l : List String) :
    ∀ acc, List.Perm (l.foldl (fun a x => insertRev less x a) acc) (l ++ acc) := by
  induction l with
  | nil => intro acc; simp
  | cons x xs ih =>
    intro acc
    simp only [List.foldl_cons, List.cons_append]
    refine ((ih (insertRev less x acc)).trans ?_)
    refine (List.Perm.append_left xs (perm_insertRev less x acc)).trans ?_
    exact List.perm_middle

/-- The sorting fold preserves the pairwise invariant when all inputs
are parseable. -/
theorem pairwise_sortFold {l : List String} (hl : ∀ z ∈ l, (parseSemver z).isSome) :
    ∀ acc, (∀ z ∈ acc, (parseSemver z).isSome) →
      acc.Pairwise (fun a b => semverLess a b = false) →
      (l.foldl (fun a x => insertRev semverLess x a) acc).Pairwise
        (fun a b => semverLess a b = false) := by
  induction l with
  | nil => intro acc _ hp; exact hp
  | cons x xs ih =>
    intro acc hacc hp
    simp only [List.foldl_cons]
    have hx : (parseSemver x).isSome := hl x (List.mem_cons_self x xs)
    have hxs : ∀ z ∈ xs, (parseSemver z).isSome :=
      fun z hz => hl z (List.mem_cons_of_mem x hz)
    refine ih hxs (insertRev semverLess x acc) ?_ (pairwise_insertRev hx hacc hp)
    intro z hz
    rcases mem_insertRev.1 hz with rfl | hz2
    · exact hx
    · exact hacc z hz2

/-- `sortSlice` permutes its input. -/
theorem sortSlice_perm (less : String → String → Bool) (l : List String) :
    List.Perm (sortSlice less l) l := by
  unfold sortSlice
  refine (List.reverse_perm _).trans ?_
  simpa using perm_sortFold less l []

/-- On all-parseable input, `sortSlice semverLess` is sorted descending:
no element is semver-greater than an earlier one. -/
theorem sortSlice_pairwise {l : List String} (hl : ∀ z ∈ l, (parseSemver z).isSome) :
    (sortSlice semverLess l).Pairwise (fun a b => semverLess b a = false) := by
  unfold sortSlice
  rw [List.pairwise_reverse]
  exact pairwise_sortFold hl [] (by simp) (by simp)

/-- Decomposition of a successful `find?`: the list splits at the found
element and the elements before it all fail the predicate. -/
theorem find?_split {p : String → Bool} {l : List String} {v : String}
    (h : l.find? p = some v) :
    ∃ l1 l2, l = l1 ++ v :: l2 ∧ ∀ w ∈ l1, p w = false := by
  induction l with
  | nil => simp [List.find?] at h
  | cons c cs ih =>
    rw [List.find?_cons] at h
    cases hc : p c
    · rw [hc] at h
      obtain ⟨l1, l2, rfl, hl1⟩ := ih h
      refine ⟨c :: l1, l2, rfl, ?_⟩
      intro w hw
      rcases List.mem_cons.1 hw with rfl | hw2
      · exact hc
      · exact hl1 w hw2
    · rw [hc] at h
      cases h
      exact ⟨[], cs, rfl, by simp⟩

end Fpm

namespace Fpm

/-- A satisfied selection predicate implies the version parses. -/
theorem parseable_of_satisfiesB {c : Constraint} {v : String} (h : satisfiesB c v = true) :
    (parseSemver v).isSome := by
  unfold satisfiesB at h
  cases hv : parseSemver v
  · rw [hv] at h
    exact absurd h (by simp)
  · simp [hv]

/-- Reduction of `resolveVersion` once the range parses as a
constraint. -/
theorem resolveVersion_constraint_cases {md : Metadata} {range : String} {c : Constraint}
    (hc : parseConstraint range = some c) :
    resolveVersion md range =
      match (sortSlice semverLess (versionKeys md)).find? (satisfiesB c) with
      | some v => .ok v
      | none => .error (.noMatchingVersion range) := by
  have hne : range ≠ "latest" := by
    intro he
    rw [he, show parseConstraint "latest" = none from by decide] at hc
    exact Option.noConfusion hc
  unfold resolveVersion
  rw [if_neg hne, hc]

/-- C8: for every range other than the literal `latest`, `resolveVersion`
fails with the invalid-range error exactly when the range does not parse
as a constraint, and — once the constraint parses — fails with the
no-matching-version error exactly when no published version (parseable
and) satisfying it exists, which covers the empty version set. -/
theorem c8_resolve_error_conditions (md : Metadata) (range : String) (h : range ≠ "latest") :
    (resolveVersion md range = .error (.invalidRange range) ↔ parseConstraint range = none) ∧
    (∀ c, parseConstraint range = some c →
      (resolveVersion md range = .error (.noMatchingVersion range) ↔
        ∀ v ∈ versionKeys md, satisfiesB c v = false)) := by
  constructor
  · cases hc : parseConstraint range with
    | none =>
      unfold resolveVersion
      rw [if_neg h, hc]
      simp
    | some c =>
      rw [resolveVersion_constraint_cases hc]
      cases hf : (sortSlice semverLess (versionKeys md)).find? (satisfiesB c) <;> simp [hc]
  · intro c hc
    rw [resolveVersion_constraint_cases hc]
    cases hf : (sortSlice semverLess (versionKeys md)).find? (satisfiesB c) with
    | some v =>
      refine iff_of_false (by simp) ?_
      intro hall
      have hv : v ∈ versionKeys md :=
        ((sortSlice_perm semverLess (versionKeys md)).mem_iff).1 (List.mem_of_find?_eq_some hf)
      have hsat := List.find?_some hf
      rw [hall v hv] at hsat
      exact Bool.noConfusion hsat
    | none =>
      rw [List.find?_eq_none] at hf
      refine iff_of_true rfl ?_
      intro v hv
      have hv2 : v ∈ sortSlice semverLess (versionKeys md) :=
        ((sortSlice_perm semverLess (versionKeys md)).mem_iff).2 hv
      exact Bool.eq_false_iff.2 (hf v hv2)

/-- Witness for C8: on the counterexample metadata, an unparseable range
fails as invalid and an unsatisfiable one as no-matching. -/
theorem c8_witness :
    resolveVersion mdBad "bogus" = .error (.invalidRange "bogus") ∧
    resolveVersion mdBad ">=3.0.0" = .error (.noMatchingVersion ">=3.0.0") :=
  ⟨(c8_resolve_error_conditions mdBad "bogus" (by decide)).1.2 (by decide),
    ((c8_resolve_error_conditions mdBad ">=3.0.0" (by decide)).2 (.ge ⟨3, 0, 0⟩)
      (by decide)).2 (by decide)⟩

/-- C1 (counterexample): on a metadata document whose versions map
iterates as `1.0.0, garbage, 2.0.0`, resolution of `>=1.0.0` returns
`1.0.0`, although the published version `2.0.0` also satisfies the range
and is semver-greater — the unparseable entry makes the comparator
partial, insertion sort leaves the slice unsorted, and the first
satisfying element is not the highest. -/
theorem c1_counterexample :
    resolveVersion mdBad ">=1.0.0" = .ok "1.0.0" ∧
    "2.0.0" ∈ versionKeys mdBad ∧
    parseConstraint ">=1.0.0" = some (.ge ⟨1, 0, 0⟩) ∧
    satisfiesB (.ge ⟨1, 0, 0⟩) "2.0.0" = true ∧
    semverLess "2.0.0" "1.0.0" = true := by
  refine ⟨by decide, by decide, by decide, by decide, by decide⟩

/-- C1 (amended): a `latest` range returns exactly the version named by
the `latest` dist-tag; for a parsed constraint, any returned version is
published and satisfies it, a satisfiable version set always resolves
(unparseable published versions are skipped, not fatal), and — provided
every published version parses — the returned version is the highest
satisfying one.  (With unparseable versions present the sort comparator
is partial and a satisfying but non-maximal version can be returned, as
the counterexample shows.) -/
theorem c1_resolve_latest_and_highest :
    (∀ (md : Metadata) (tags : List (String × String)) (v : String),
        md.distTags = some tags → tags.lookup "latest" = some v →
        resolveVersion md "latest" = .ok v) ∧
    (∀ (md : Metadata) (range : String) (c : Constraint), parseConstraint range = some c →
      (∀ v, resolveVersion md range = .ok v → v ∈ versionKeys md ∧ satisfiesB c v = true) ∧
      ((∃ w ∈ versionKeys md, satisfiesB c w = true) → ∃ v, resolveVersion md range = .ok v) ∧
      ((∀ v ∈ versionKeys md, (parseSemver v).isSome) →
        ∀ v, resolveVersion md range = .ok v →
          ∀ w ∈ versionKeys md, satisfiesB c w = true → semverLess w v = false)) := by
  constructor
  · intro md tags v htags hv
    unfold resolveVersion
    simp [htags, hv]
  · intro md range c hc
    refine ⟨?_, ?_, ?_⟩
    · intro v hres
      rw [resolveVersion_constraint_cases hc] at hres
      cases hf : (sortSlice semverLess (versionKeys md)).find? (satisfiesB c) with
      | none => rw [hf] at hres; exact absurd hres (by simp)
      | some u =>
        rw [hf] at hres
        have huv : u = v := by
          injection hres
        subst huv
        exact ⟨((sortSlice_perm semverLess (versionKeys md)).mem_iff).1
            (List.mem_of_find?_eq_some hf), List.find?_some hf⟩
    · rintro ⟨w, hw, hsat⟩
      rw [resolveVersion_constraint_cases hc]
      cases hf : (sortSlice semverLess (versionKeys md)).find? (satisfiesB c) with
      | some u => exact ⟨u, rfl⟩
      | none =>
        rw [List.find?_eq_none] at hf
        have hw2 : w ∈ sortSlice semverLess (versionKeys md) :=
          ((sortSlice_perm semverLess (versionKeys md)).mem_iff).2 hw
        exact absurd hsat (hf w hw2)
    · intro hall v hres w hw hsat
      rw [resolveVersion_constraint_cases hc] at hres
      cases hf : (sortSlice semverLess (versionKeys md)).find? (satisfiesB c) with
      | none => rw [hf] at hres; exact absurd hres (by simp)
      | some u =>
        rw [hf] at hres
        have huv : u = v := by injection hres
        subst huv
        obtain ⟨l1, l2, hsplit, hl1⟩ := find?_split hf
        have hallSorted : ∀ z ∈ sortSlice semverLess (versionKeys md), (parseSemver z).isSome :=
          fun z hz => hall z (((sortSlice_perm semverLess (versionKeys md)).mem_iff).1 hz)
        have hpair := sortSlice_pairwise hall
        rw [hsplit] at hpair
        have hw2 : w ∈ l1 ++ u :: l2 := by
          rw [← hsplit]
          exact ((sortSlice_perm semverLess (versionKeys md)).mem_iff).2 hw
        rcases List.mem_append.1 hw2 with hw3 | hw3
        · exact absurd hsat (by rw [hl1 w hw3]; simp)
        · rcases List.mem_cons.1 hw3 with rfl | hw4
          · exact semverLess_irrefl w
          · have hp2 := (List.pairwise_append.1 hpair).2.1
            rw [List.pairwise_cons] at hp2
            exact hp2.1 w hw4

/-- Witness for C1 (amended): on the world of package `p`, `latest`
resolves to the tagged version and `^1.0.0` resolves to the highest
satisfying published version. -/
theorem c1_witness :
    resolveVersion mdP "latest" = .ok "1.2.3" ∧
    ("1.2.3" ∈ versionKeys mdP ∧ satisfiesB (.caret ⟨1, 0, 0⟩) "1.2.3" = true) ∧
    semverLess "1.2.3" "1.2.3" = false :=
  ⟨c1_resolve_latest_and_highest.1 mdP [("latest", "1.2.3")] "1.2.3" rfl (by decide),
    (c1_resolve_latest_and_highest.2 mdP "^1.0.0" (.caret ⟨1, 0, 0⟩) (by decide)).1 "1.2.3"
      (by decide),
    (c1_resolve_latest_and_highest.2 mdP "^1.0.0" (.caret ⟨1, 0, 0⟩) (by decide)).2.2 (by decide)
      "1.2.3" (by decide) "1.2.3" (by decide) (by decide)⟩

end Fpm

namespace Fpm

/-! ## C4: integrity verification of downloads -/

/-- Case-insensitive equality is reflexive. -/
theorem lowerEq_self (a : String) : lowerEq a a = true := by simp [lowerEq]

/-- A download whose expected shasum differs (even case-insensitively)
from the computed digest fails with the checksum-mismatch error. -/
theorem downloadPackage_mismatch (digest : List Nat → List Nat) (url sha dest : String)
    (body : List Nat) (hbad : lowerEq sha (hexLower (digest body)) = false) :
    DownloadPackage (.status 200 body) digest url sha dest =
      .error (.checksumMismatch sha (hexLower (digest body))) := by
  have hne : hexLower (digest body) ≠ sha := by
    intro he
    rw [he] at hbad
    simp [lowerEq_self] at hbad
  simp only [DownloadPackage]
  rw [if_neg (by simp), if_pos hne]

/-- A successful download means the expected shasum equals the lowercase
hex digest of the body — in particular the two are equal
case-insensitively. -/
theorem downloadPackage_ok_hash (digest : List Nat → List Nat) (url sha dest : String)
    (code : Nat) (body : List Nat) (p : String)
    (h : DownloadPackage (.status code body) digest url sha dest = .ok p) :
    sha = hexLower (digest body) ∧ lowerEq sha (hexLower (digest body)) = true := by
  simp only [DownloadPackage] at h
  split_ifs at h with h1 h2
  push_neg at h2
  rw [h2]
  exact ⟨rfl, lowerEq_self _⟩

/-- C4: fetch succeeds only if the expected hash equals the SHA-1 hex
digest of the body (hence also compared case-insensitively); when the
two differ case-insensitively the download fails with the integrity
error, and the installer then returns without ever reaching the
extraction step — the event trace ends at the download, with no extract
event. -/
theorem c4_download_integrity :
    (∀ (digest : List Nat → List Nat) (url sha dest : String) (code : Nat) (body : List Nat)
        (p : String),
        DownloadPackage (.status code body) digest url sha dest = .ok p →
        lowerEq sha (hexLower (digest body)) = true) ∧
    (∀ (digest : List Nat → List Nat) (url sha dest : String) (body : List Nat),
        lowerEq sha (hexLower (digest body)) = false →
        DownloadPackage (.status 200 body) digest url sha dest =
          .error (.checksumMismatch sha (hexLower (digest body)))) ∧
    (∀ (w : World) (fuel : Nat) (name range : String) (st : St) (info : PackageInfo)
        (url sha : String) (body : List Nat),
        name ∉ st.installing → name ∉ st.visited → st.disk.lookup name = none →
        FetchPackageInfo w.registry name range = .ok info →
        info.dist.lookup "tarball" = some url →
        info.dist.lookup "shasum" = some sha →
        w.http url = .status 200 body →
        lowerEq sha (hexLower (w.digest body)) = false →
        installPackage w (fuel + 1) name range st =
          (.err (.downloadFailed (.checksumMismatch sha (hexLower (w.digest body)))),
           ⟨st.graph, st.installing, name :: st.visited, st.disk,
            st.events ++ [.fetchInfo name, .download name url]⟩)) := by
  refine ⟨?_, ?_, ?_⟩
  · intro digest url sha dest code body p h
    exact (downloadPackage_ok_hash digest url sha dest code body p h).2
  · intro digest url sha dest body hbad
    exact downloadPackage_mismatch digest url sha dest body hbad
  · intro w fuel name range st info url sha body hni hnv hnd hreg htar hsha hhttp hbad
    have hdl := downloadPackage_mismatch w.digest url sha "./node_modules" body hbad
    simp only [installPackage, installBody, hni, hnv, hnd, hreg, htar, hsha, hhttp, hdl,
      if_neg, if_false, Option.isSome_none, Bool.false_eq_true, List.mem_cons]
    simp [List.erase_cons_head, List.append_assoc]

/-- Witness for C4: a concrete mismatching download fails with the
integrity error and the installer of world `wPbad` stops before
extraction. -/
theorem c4_witness :
    DownloadPackage (.status 200 [171]) (fun b => b) "u" "ff" "./node_modules" =
      .error (.checksumMismatch "ff" "ab") ∧
    installPackage wPbad 5 "p" "^1.0.0" (initSt []) =
      (.err (.downloadFailed (.checksumMismatch "ff" "ab")),
       ⟨emptyGraph, [], ["p"], [], [.fetchInfo "p", .download "p" "u"]⟩) := by
  constructor
  · have h := c4_download_integrity.2.1 (fun b => b) "u" "ff" "./node_modules" [171] (by decide)
    simpa using h
  · have h := c4_download_integrity.2.2 wPbad 4 "p" "^1.0.0" (initSt [])
      ⟨"p", "1.2.3", [("tarball", "u"), ("shasum", "ff")]⟩ "u" "ff" [171]
      (by decide) (by decide) (by decide) (by decide) (by decide) (by decide) (by decide)
      (by decide)
    simpa using h

end Fpm

namespace Fpm

/-! ## C5 and C9: archive extraction -/

/-- For an entry inside the conventional `package/` root wrapper, the
literal trim performed by the code and the spec's first-segment
stripping agree, both yielding the remainder. -/
theorem strip_root_wrapper (rest : String) :
    trimPre ("package/" ++ rest) "package/" = rest ∧
    dropFirstSegment ("package/" ++ rest) = rest := by
  obtain ⟨rd⟩ := rest
  have hd : ("package/" ++ String.mk rd).data =
      'p' :: 'a' :: 'c' :: 'k' :: 'a' :: 'g' :: 'e' :: '/' :: rd := rfl
  have hp : ("package/" : String).data = ['p', 'a', 'c', 'k', 'a', 'g', 'e', '/'] := rfl
  constructor
  · unfold trimPre
    rw [hd, hp]
    simp [List.isPrefixOf]
  · unfold dropFirstSegment
    rw [hd]
    simp [List.dropWhile]

/-- On archives whose entries are all of supported type, the entry loop
succeeds and produces exactly the per-entry trace. -/
theorem extractEntries_ok_ops (packageDir : String) (entries : List TarEntry)
    (h : entries.all okEntry = true) :
    extractEntries packageDir entries = (.ok (), entries.flatMap (entryOps packageDir)) := by
  induction entries with
  | nil => rfl
  | cons e es ih =>
    rw [List.all_cons, Bool.and_eq_true] at h
    have ihe := ih h.2
    cases e with
    | dir n m => simp [extractEntries, ihe, entryOps]
    | file n c => simp [extractEntries, ihe, entryOps]
    | other n tf => exact absurd h.1 (by simp [okEntry])

/-- The entry loop aborts with the unsupported-entry error at the first
entry of unsupported type, whatever follows it. -/
theorem extractEntries_abort (packageDir : String) (pre suf : List TarEntry)
    (n : String) (tf : Nat) (h : pre.all okEntry = true) :
    (extractEntries packageDir (pre ++ .other n tf :: suf)).1 =
      .error (.unsupportedEntry tf) := by
  induction pre with
  | nil => rfl
  | cons e es ih =>
    rw [List.all_cons, Bool.and_eq_true] at h
    have ihe := ih h.2
    cases e with
    | dir m mo => simpa [extractEntries] using ihe
    | file m c => simpa [extractEntries] using ihe
    | other m mtf => exact absurd h.1 (by simp [okEntry])

/-- C5 (counterexample): an archive whose single regular-file entry is
named `other/a.txt` — not under the literal `package/` wrapper —
extracts successfully, but the file is written at
`destRoot/p/other/a.txt`: the first path segment is *not* stripped
(the spec's stripping would have produced `destRoot/p/a.txt`). -/
theorem c5_counterexample :
    extractTarball "t.tgz" "./node_modules" "p" (some [.file "other/a.txt" "x"]) true =
      (.ok (), [.mkdirAll "./node_modules/p" 511,
                .mkdirAll "./node_modules/p/other" 511,
                .writeFile "./node_modules/p/other/a.txt" "x",
                .removeFile "t.tgz" true]) ∧
    dropFirstSegment "other/a.txt" = "a.txt" ∧
    joinPath (joinPath "./node_modules" "p") (dropFirstSegment "other/a.txt") =
      "./node_modules/p/a.txt" ∧
    ("./node_modules/p/other/a.txt" : String) ≠ "./node_modules/p/a.txt" := by
  refine ⟨by decide, by decide, by decide, by decide⟩

/-- C5 (amended): extraction of an archive containing only directory and
regular-file entries succeeds and reproduces every entry under
`destRoot/packageName` at its path with the literal prefix `package/`
trimmed — for entries inside the conventional `package/` root wrapper
this equals stripping the first path segment, but entries outside that
wrapper keep their full path; an entry of any other type fails the
extraction with the unsupported-entry error at that point, whatever
entries remain. -/
theorem c5_extract_amended :
    (∀ (path dest pkg : String) (entries : List TarEntry) (removeOk : Bool),
        entries.all okEntry = true →
        extractTarball path dest pkg (some entries) removeOk =
          (.ok (), .mkdirAll (joinPath dest pkg) 511 ::
            (entries.flatMap (entryOps (joinPath dest pkg)) ++ [.removeFile path removeOk]))) ∧
    (∀ rest : String, trimPre ("package/" ++ rest) "package/" = rest ∧
        dropFirstSegment ("package/" ++ rest) = rest) ∧
    (∀ (path dest pkg : String) (removeOk : Bool) (pre suf : List TarEntry) (n : String) (tf : Nat),
        pre.all okEntry = true →
        (extractTarball path dest pkg (some (pre ++ .other n tf :: suf)) removeOk).1 =
          .error (.unsupportedEntry tf)) := by
  refine ⟨?_, strip_root_wrapper, ?_⟩
  · intro path dest pkg entries removeOk h
    simp [extractTarball, extractEntries_ok_ops (joinPath dest pkg) entries h]
  · intro path dest pkg removeOk pre suf n tf h
    have hE := extractEntries_abort (joinPath dest pkg) pre suf n tf h
    rcases hEq : extractEntries (joinPath dest pkg) (pre ++ .other n tf :: suf) with ⟨r, ops⟩
    rw [hEq] at hE
    simp [extractTarball, hEq, hE]

/-- Witness for C5 (amended): a well-formed two-entry archive under the
`package/` wrapper extracts to the stripped tree, and a symlink-like
entry aborts extraction. -/
theorem c5_witness :
    extractTarball "t.tgz" "./node_modules" "p"
        (some [.dir "package/lib" 493, .file "package/lib/a.js" "x"]) true =
      (.ok (), [.mkdirAll "./node_modules/p" 511,
                .mkdirAll "./node_modules/p/lib" 493,
                .mkdirAll "./node_modules/p/lib" 511,
                .writeFile "./node_modules/p/lib/a.js" "x",
                .removeFile "t.tgz" true]) ∧
    (trimPre ("package/" ++ "lib/a.js") "package/" = "lib/a.js" ∧
      dropFirstSegment ("package/" ++ "lib/a.js") = "lib/a.js") ∧
    (extractTarball "t.tgz" "./node_modules" "p"
        (some [.dir "package/lib" 493, .other "package/link" 50]) true).1 =
      .error (.unsupportedEntry 50) := by
  refine ⟨?_, c5_extract_amended.2.1 "lib/a.js", ?_⟩
  · have h := c5_extract_amended.1 "t.tgz" "./node_modules" "p"
      [.dir "package/lib" 493, .file "package/lib/a.js" "x"] true (by decide)
    rw [h]
    decide
  · have h := c5_extract_amended.2.2 "t.tgz" "./node_modules" "p" true
      [.dir "package/lib" 493] [] "package/link" 50 (by decide)
    simpa using h

/-- C9: whatever the archive contents and whether or not the removal
itself succeeds, the filesystem trace of `extractTarball` ends with the
removal of the source archive file, and the primary result (success or
the error returned) is the same whether the removal succeeds or fails. -/
theorem c9_tarball_always_removed (path dest pkg : String)
    (entries : Option (List TarEntry)) (removeOk : Bool) :
    (extractTarball path dest pkg entries removeOk).2.getLast? =
      some (.removeFile path removeOk) ∧
    (extractTarball path dest pkg entries true).1 =
      (extractTarball path dest pkg entries false).1 := by
  cases entries with
  | none => exact ⟨rfl, rfl⟩
  | some es =>
    rcases hEq : extractEntries (joinPath dest pkg) es with ⟨r, ops⟩
    constructor
    · simp only [extractTarball, hEq]
      rw [← List.cons_append, List.getLast?_concat]
    · simp only [extractTarball, hEq]

end Fpm

namespace Fpm

/-! ## C3: the cycle-prevented dependency graph -/

/-- Membership in one expansion step. -/
theorem mem_stepSet {E : List (String × String)} {S : Finset String} {x : String} :
    x ∈ stepSet E S ↔ x ∈ S ∨ ∃ e, e ∈ E ∧ e.1 ∈ S ∧ e.2 = x := by
  simp [stepSet, List.mem_filter]

/-- A set is contained in its expansion. -/
theorem subset_stepSet {E : List (String × String)} {S : Finset String} : S ⊆ stepSet E S :=
  fun _ hx => mem_stepSet.2 (Or.inl hx)

/-- The expansion stages grow with the stage index. -/
theorem iterN_mono {E : List (String × String)} {s : String} {m n : Nat} (h : m ≤ n) :
    iterN E s m ⊆ iterN E s n := by
  induction n with
  | zero => rw [Nat.le_zero.1 h]
  | succ n ih =>
    rcases Nat.lt_or_ge m (n + 1) with hlt | hge
    · exact (ih (Nat.lt_succ_iff.1 hlt)).trans subset_stepSet
    · rw [Nat.le_antisymm h hge]

/-- Soundness: every node of an expansion stage is reachable from the
start. -/
theorem iterN_sound {E : List (String × String)} {s : String} :
    ∀ {n y}, y ∈ iterN E s n → Relation.ReflTransGen (edgeRel E) s y := by
  intro n
  induction n with
  | zero =>
    intro x hx
    rw [iterN, Finset.mem_singleton] at hx
    rw [hx]
  | succ n ih =>
    intro x hx
    rcases mem_stepSet.1 hx with hx2 | ⟨e, heE, h1, h2⟩
    · exact ih hx2
    · refine (ih h1).tail ?_
      rw [← h2]
      exact heE

/-- Every reachable node appears in some expansion stage. -/
theorem reflTransGen_mem_iterN {E : List (String × String)} {s x : String}
    (h : Relation.ReflTransGen (edgeRel E) s x) : ∃ n, x ∈ iterN E s n := by
  induction h with
  | refl => exact ⟨0, Finset.mem_singleton_self s⟩
  | tail h1 h2 ih =>
    obtain ⟨n, hn⟩ := ih
    refine ⟨n + 1, mem_stepSet.2 (Or.inr ⟨_, h2, hn, rfl⟩)⟩

/-- Once one stage repeats, the expansion stays fixed. -/
theorem iterN_stab {E : List (String × String)} {s : String} {n : Nat}
    (h : iterN E s (n + 1) = iterN E s n) : ∀ m, iterN E s (n + m) = iterN E s n := by
  intro m
  induction m with
  | zero => rfl
  | succ m ih =>
    have : n + (m + 1) = (n + m) + 1 := rfl
    rw [this, iterN, ih, ← iterN, h]

/-- As long as no stage has repeated, the stage cardinality grows
strictly. -/
theorem iterN_card_grow {E : List (String × String)} {s : String} :
    ∀ n, (∀ m, m < n → iterN E s (m + 1) ≠ iterN E s m) → n + 1 ≤ (iterN E s n).card := by
  intro n
  induction n with
  | zero => intro _; simp [iterN]
  | succ n ih =>
    intro h
    have hprev := ih (fun m hm => h m (Nat.lt_succ_of_lt hm))
    have hne : iterN E s (n + 1) ≠ iterN E s n := h n (Nat.lt_succ_self n)
    have hss : iterN E s n ⊂ iterN E s (n + 1) :=
      Finset.ssubset_iff_subset_ne.2 ⟨subset_stepSet, fun he => hne he.symm⟩
    have := Finset.card_lt_card hss
    omega

/-- Every expansion stage lives inside the start node plus the edge
targets. -/
theorem iterN_subset_univ {E : List (String × String)} {s : String} :
    ∀ n, iterN E s n ⊆ insert s (E.map Prod.snd).toFinset := by
  intro n
  induction n with
  | zero =>
    intro x hx
    rw [iterN, Finset.mem_singleton] at hx
    rw [hx]
    exact Finset.mem_insert_self s _
  | succ n ih =>
    intro x hx
    rcases mem_stepSet.1 hx with hx2 | ⟨e, heE, _, h2⟩
    · exact ih hx2
    · refine Finset.mem_insert_of_mem ?_
      rw [List.mem_toFinset, ← h2]
      exact List.mem_map_of_mem Prod.snd heE

/-- Some stage below the bound is already a fixpoint. -/
theorem iterN_saturates (E : List (String × String)) (s : String) :
    ∃ m, m < reachBound E s ∧ iterN E s (m + 1) = iterN E s m := by
  by_contra hc
  push_neg at hc
  have hgrow := iterN_card_grow (E := E) (s := s) (reachBound E s) hc
  have hle := Finset.card_le_card (iterN_subset_univ (E := E) (s := s) (reachBound E s))
  have hB : (insert s (E.map Prod.snd).toFinset).card = reachBound E s := rfl
  rw [hB] at hle
  omega

/-- Completeness of the reachability decision procedure. -/
theorem reachableB_complete {E : List (String × String)} {s x : String}
    (h : Relation.ReflTransGen (edgeRel E) s x) : reachableB E s x = true := by
  obtain ⟨n, hn⟩ := reflTransGen_mem_iterN h
  obtain ⟨m, hmB, hfix⟩ := iterN_saturates E s
  rw [reachableB, decide_eq_true_eq]
  rcases Nat.le_total n (reachBound E s) with hle | hge
  · exact iterN_mono hle hn
  · have hmn : n = m + (n - m) := by omega
    rw [hmn, iterN_stab hfix (n - m)] at hn
    exact iterN_mono (Nat.le_of_lt hmB) hn

/-- Soundness of the reachability decision procedure. -/
theorem reachableB_sound {E : List (String × String)} {s x : String}
    (h : reachableB E s x = true) : Relation.ReflTransGen (edgeRel E) s x := by
  rw [reachableB, decide_eq_true_eq] at h
  exact iterN_sound h

/-- A path in a graph extended by one edge either avoids the new edge or
passes through it. -/
theorem reflTransGen_decompose {E : List (String × String)} {f t x y : String}
    (h : Relation.ReflTransGen (edgeRel ((f, t) :: E)) x y) :
    Relation.ReflTransGen (edgeRel E) x y ∨
      (Relation.ReflTransGen (edgeRel E) x f ∧ Relation.ReflTransGen (edgeRel E) t y) := by
  induction h with
  | refl => exact Or.inl .refl
  | tail h1 h2 ih =>
    rcases List.mem_cons.1 h2 with heq | hmem
    · obtain ⟨hb, hc⟩ := Prod.mk.injEq .. ▸ heq
      rcases ih with ih1 | ⟨ih1, _⟩
      · exact Or.inr ⟨hb ▸ ih1, hc ▸ .refl⟩
      · exact Or.inr ⟨ih1, hc ▸ .refl⟩
    · rcases ih with ih1 | ⟨ih1, ih2⟩
      · exact Or.inl (ih1.tail hmem)
      · exact Or.inr ⟨ih1, ih2.tail hmem⟩

/-- A successful `addEdge` preserves acyclicity. -/
theorem addEdge_preserves_acyclic {g g2 : Graph} {f t : String} (hac : Acyclic g)
    (h : addEdge g f t = .ok g2) : Acyclic g2 := by
  unfold addEdge at h
  split_ifs at h with h1 h2 h3 h4
  have hg2 : g2 = { g with edges := (f, t) :: g.edges } := by
    injection h with h5
    exact h5.symm
  subst hg2
  intro a b hab hpath
  have hreach : ∀ {u v : String}, Relation.ReflTransGen (edgeRel g.edges) u v →
      u = t → v = f → False := by
    intro u v hp hu hv
    rw [hu, hv] at hp
    rw [reachableB_complete hp] at h4
    exact h4 rfl
  rcases List.mem_cons.1 hab with heq | hmem
  · obtain ⟨ha, hb⟩ := Prod.mk.injEq .. ▸ heq
    rcases reflTransGen_decompose hpath with hp | ⟨hp, _⟩
    · exact hreach hp hb ha
    · exact hreach hp hb rfl
  · rcases reflTransGen_decompose hpath with hp | ⟨hp1, hp2⟩
    · exact hac a b hmem hp
    · exact hreach ((hp2.tail hmem).trans hp1) rfl rfl

/-- Every graph call preserves acyclicity (rejected calls leave the
graph unchanged, `addVertex` does not touch the edges). -/
theorem applyOp_preserves_acyclic {g : Graph} (hac : Acyclic g) (op : GraphOp) :
    Acyclic (applyOp g op) := by
  cases op with
  | vertex n =>
    simp only [applyOp]
    cases hv : addVertex g n with
    | error e => exact hac
    | ok g2 =>
      unfold addVertex at hv
      split_ifs at hv
      injection hv with h5
      rw [← h5]
      exact hac
  | edge f t =>
    simp only [applyOp]
    cases he : addEdge g f t with
    | error e => exact hac
    | ok g2 => exact addEdge_preserves_acyclic hac he

/-- The empty graph is acyclic and the property is preserved by every
call sequence. -/
theorem applyOps_acyclic (ops : List GraphOp) : ∀ g, Acyclic g → Acyclic (applyOps g ops) := by
  induction ops with
  | nil => intro g hg; exact hg
  | cons op rest ih =>
    intro g hg
    exact ih (applyOp g op) (applyOp_preserves_acyclic hg op)

end Fpm

namespace Fpm

/-- The tolerated vertex insertion makes the vertex present. -/
theorem mem_addVertexTol (g : Graph) (n : String) : n ∈ (addVertexTol g n).vertices := by
  unfold addVertexTol addVertex
  split_ifs with h
  · exact h
  · exact List.mem_cons_self n g.vertices

/-- The tolerated vertex insertion only grows the vertex list. -/
theorem subset_addVertexTol (g : Graph) (n : String) :
    g.vertices ⊆ (addVertexTol g n).vertices := by
  unfold addVertexTol addVertex
  split_ifs with h
  · exact fun x hx => hx
  · exact fun x hx => List.mem_cons_of_mem n hx

/-- A successful `addEdge` leaves the vertex list unchanged. -/
theorem addEdge_ok_vertices {g g2 : Graph} {f t : String} (h : addEdge g f t = .ok g2) :
    g2.vertices = g.vertices := by
  unfold addEdge at h
  split_ifs at h
  injection h with h5
  rw [← h5]

/-- The dependency loop only grows the vertex list, provided the
recursive install does. -/
theorem graph_mono_processPackageJson (inst : String → String → St → Outcome × St)
    (hinst : ∀ n v st, st.graph.vertices ⊆ (inst n v st).2.graph.vertices) (pkg : String) :
    ∀ (deps : List (String × String)) (st : St),
      st.graph.vertices ⊆ (processPackageJson inst pkg deps st).graph.vertices := by
  intro deps
  induction deps with
  | nil => intro st; exact fun x hx => hx
  | cons dd rest ih =>
    intro st
    obtain ⟨depName, depVersion⟩ := dd
    simp only [processPackageJson]
    cases hE : addEdge (addVertexTol st.graph depName) pkg depName with
    | error e => exact fun x hx => ih _ (subset_addVertexTol _ _ hx)
    | ok g2 =>
      have h1 : st.graph.vertices ⊆ g2.vertices := by
        rw [addEdge_ok_vertices hE]
        exact subset_addVertexTol _ _
      exact fun x hx => ih _ (hinst _ _ _ (h1 hx))

/-- The install body only grows the vertex list, provided the recursive
install does. -/
theorem graph_mono_installBody (w : World) (inst : String → String → St → Outcome × St)
    (hinst : ∀ n v st, st.graph.vertices ⊆ (inst n v st).2.graph.vertices) :
    ∀ n v st, st.graph.vertices ⊆ (installBody w inst n v st).2.graph.vertices := by
  intro n v st
  simp only [installBody]
  split_ifs with h1 h2
  · exact fun x hx => hx
  · exact subset_addVertexTol _ _
  · repeat' split
    all_goals first
      | exact fun x hx => hx
      | exact subset_addVertexTol _ _
      | exact fun x hx =>
          graph_mono_processPackageJson inst hinst n _ _ (subset_addVertexTol _ _ hx)

/-- `installPackage` only grows the vertex list. -/
theorem graph_mono_installPackage (w : World) :
    ∀ fuel n v st, st.graph.vertices ⊆ (installPackage w fuel n v st).2.graph.vertices := by
  intro fuel
  induction fuel with
  | zero => intro n v st; exact fun x hx => hx
  | succ fuel ih =>
    intro n v st
    simp only [installPackage]
    split_ifs with h1
    · exact fun x hx => hx
    · have h := graph_mono_installBody w (fun n2 v2 s2 => installPackage w fuel n2 v2 s2) ih n v
        ⟨st.graph, n :: st.installing, st.visited, st.disk, st.events⟩
      exact h

/-- Every declared dependency of a parent ends up in the graph's vertex
list after the dependency loop, whatever edge rejections or install
failures happened for it or its siblings. -/
theorem processPackageJson_processes_all (inst : String → String → St → Outcome × St)
    (hinst : ∀ n v st, st.graph.vertices ⊆ (inst n v st).2.graph.vertices) (pkg : String) :
    ∀ (deps : List (String × String)) (st : St) (d : String × String), d ∈ deps →
      d.1 ∈ (processPackageJson inst pkg deps st).graph.vertices := by
  intro deps
  induction deps with
  | nil => intro st d hd; exact absurd hd (List.not_mem_nil d)
  | cons dd rest ih =>
    intro st d hd
    obtain ⟨depName, depVersion⟩ := dd
    rcases List.mem_cons.1 hd with rfl | hmem
    · simp only [processPackageJson]
      cases hE : addEdge (addVertexTol st.graph depName) pkg depName with
      | error e =>
        exact graph_mono_processPackageJson inst hinst pkg rest _ (mem_addVertexTol _ _)
      | ok g2 =>
        refine graph_mono_processPackageJson inst hinst pkg rest _ (hinst _ _ _ ?_)
        rw [addEdge_ok_vertices hE]
        exact mem_addVertexTol _ _
    · simp only [processPackageJson]
      cases hE : addEdge (addVertexTol st.graph depName) pkg depName with
      | error e => exact ih _ d hmem
      | ok g2 => exact ih _ d hmem

/-- A duplicate edge between existing vertices is rejected. -/
theorem addEdge_duplicate {g : Graph} {f t : String} (hf : f ∈ g.vertices)
    (ht : t ∈ g.vertices) (hd : (f, t) ∈ g.edges) :
    addEdge g f t = .error .edgeAlreadyExists := by
  unfold addEdge
  rw [if_neg (not_not_intro hf), if_neg (not_not_intro ht), if_pos hd]

/-- An edge whose target already reaches its source is rejected as
closing a cycle. -/
theorem addEdge_cycle {g : Graph} {f t : String} (hf : f ∈ g.vertices) (ht : t ∈ g.vertices)
    (hd : (f, t) ∉ g.edges) (hr : Relation.ReflTransGen (edgeRel g.edges) t f) :
    addEdge g f t = .error .edgeCreatesCycle := by
  unfold addEdge
  rw [if_neg (not_not_intro hf), if_neg (not_not_intro ht), if_neg hd,
    if_pos (reachableB_complete hr)]

/-- The starting graph of a run is acyclic. -/
theorem acyclic_emptyGraph : Acyclic emptyGraph := by
  intro a b hab
  exact absurd hab (List.not_mem_nil _)

/-- C3: after any sequence of `addVertex`/`addEdge` calls the dependency
graph is acyclic; an `addEdge` duplicating an existing edge is rejected
with the duplicate error and one that would close a directed cycle with
the cycle error; and such rejections do not stop the remaining declared
dependencies of the same parent from being processed — every declared
dependency still ends up as a vertex after the loop. -/
theorem c3_graph_invariant :
    (∀ ops : List GraphOp, Acyclic (applyOps emptyGraph ops)) ∧
    (∀ (g : Graph) (f t : String), f ∈ g.vertices → t ∈ g.vertices → (f, t) ∈ g.edges →
        addEdge g f t = .error .edgeAlreadyExists) ∧
    (∀ (g : Graph) (f t : String), f ∈ g.vertices → t ∈ g.vertices → (f, t) ∉ g.edges →
        Relation.ReflTransGen (edgeRel g.edges) t f →
        addEdge g f t = .error .edgeCreatesCycle) ∧
    (∀ (w : World) (fuel : Nat) (pkg : String) (deps : List (String × String)) (st : St)
        (d : String × String), d ∈ deps →
        d.1 ∈ (processPackageJson (fun n v s => installPackage w fuel n v s)
            pkg deps st).graph.vertices) := by
  refine ⟨?_, ?_, ?_, ?_⟩
  · exact fun ops => applyOps_acyclic ops emptyGraph acyclic_emptyGraph
  · exact fun g f t hf ht hd => addEdge_duplicate hf ht hd
  · exact fun g f t hf ht hd hr => addEdge_cycle hf ht hd hr
  · exact fun w fuel pkg deps st d hd =>
      processPackageJson_processes_all _ (fun n v s => graph_mono_installPackage w fuel n v s)
        pkg deps st d hd

/-- Witness for C3: a concrete duplicate edge and a concrete
cycle-closing edge are rejected on a two-vertex graph, the ops sequence
that attempts the cycle stays acyclic, and a dependency following a
rejected sibling still gets its vertex. -/
theorem c3_witness :
    Acyclic (applyOps emptyGraph
      [.vertex "a", .vertex "b", .edge "a" "b", .edge "b" "a", .edge "a" "b"]) ∧
    addEdge ⟨["b", "a"], [("a", "b")]⟩ "a" "b" = .error .edgeAlreadyExists ∧
    addEdge ⟨["b", "a"], [("a", "b")]⟩ "b" "a" = .error .edgeCreatesCycle ∧
    ("B", "^1.0.0").1 ∈ (processPackageJson (fun n v s => installPackage wC2 3 n v s)
        "A" [("A", "x"), ("B", "^1.0.0")] (initSt partialDisk)).graph.vertices :=
  ⟨c3_graph_invariant.1 _,
    c3_graph_invariant.2.1 _ "a" "b" (by decide) (by decide) (by decide),
    c3_graph_invariant.2.2.1 _ "b" "a" (by decide) (by decide) (by decide)
      (Relation.ReflTransGen.single (show ("a", "b") ∈ [("a", "b")] from by decide)),
    c3_graph_invariant.2.2.2 wC2 3 "A" [("A", "x"), ("B", "^1.0.0")] (initSt partialDisk)
      ("B", "^1.0.0") (by decide)⟩

end Fpm

namespace Fpm

/-! ## C2: the install-tree presence check -/

/-- When the package directory exists under the install root, the body
returns the requested range with no events and an unchanged install
tree. -/
theorem installBody_no_fetch (w : World) (inst : String → String → St → Outcome × St)
    (name range : String) (st : St) (hdisk : (st.disk.lookup name).isSome) :
    (installBody w inst name range st).1 = .ok range ∧
    (installBody w inst name range st).2.events = st.events ∧
    (installBody w inst name range st).2.disk = st.disk := by
  by_cases h1 : name ∈ st.visited
  · simp only [installBody, h1, if_true]
    exact ⟨by trivial, by trivial, by trivial⟩
  · simp only [installBody, h1, if_false, hdisk, if_true]
    exact ⟨by trivial, by trivial, by trivial⟩

/-- A passed full-subtree check implies the package directory exists. -/
theorem isPackageAndDeps_on_disk (disk : List (String × Option (List (String × String))))
    (fuel : Nat) (name : String) (h : (isPackageAndDeps disk (fuel + 1) name []).1 = true) :
    (disk.lookup name).isSome := by
  simp only [isPackageAndDeps, List.not_mem_nil, if_false] at h
  cases hl : disk.lookup name with
  | none =>
    rw [hl] at h
    simp at h
  | some o => simp

/-- C2 (amended): `installPackage` performs no network I/O whenever the
package's own directory exists under the install root — the `os.Stat`
check of src/utils/utils.go:110 — regardless of whether the declared
dependency subtree is present; it then returns the requested range
verbatim and leaves the install tree unchanged (so missing transitive
dependencies under an existing package directory are *not* installed).
Since a passed recursive full-subtree check implies the directory
exists, a fully-present subtree in particular performs no I/O. -/
theorem c2_existing_dir_skips_all_io :
    (∀ (w : World) (fuel : Nat) (name range : String) (st : St),
        name ∉ st.installing → (st.disk.lookup name).isSome →
        (installPackage w (fuel + 1) name range st).1 = .ok range ∧
        (installPackage w (fuel + 1) name range st).2.events = st.events ∧
        (installPackage w (fuel + 1) name range st).2.disk = st.disk) ∧
    (∀ (disk : List (String × Option (List (String × String)))) (fuel : Nat) (name : String),
        (isPackageAndDeps disk (fuel + 1) name []).1 = true → (disk.lookup name).isSome) := by
  constructor
  · intro w fuel name range st hni hdisk
    simp only [installPackage, hni, if_false]
    have h := installBody_no_fetch w (fun n v s => installPackage w fuel n v s) name range
      ⟨st.graph, name :: st.installing, st.visited, st.disk, st.events⟩ hdisk
    exact ⟨h.1, h.2.1, h.2.2⟩
  · exact isPackageAndDeps_on_disk

/-- C2 (counterexample): the install tree holds `A` but not its declared
dependency `B`; the recursive subtree check therefore fails, yet
`installPackage "A"` returns immediately after the bare directory check:
no network event happens and `B` is still missing afterwards —
installation of the missing parts is *not* triggered. -/
theorem c2_counterexample :
    (isPackageAndDeps partialDisk 5 "A" []).1 = false ∧
    runInstallPackage wC2 5 "A" "^1.0.0" (initSt partialDisk) =
      (.ok "^1.0.0", ⟨⟨["A"], []⟩, [], ["A"], partialDisk, []⟩) ∧
    countDownloads (runInstallPackage wC2 5 "A" "^1.0.0" (initSt partialDisk)).2.events "A" = 0 ∧
    (runInstallPackage wC2 5 "A" "^1.0.0" (initSt partialDisk)).2.disk.lookup "B" = none ∧
    wC2.registry.lookup "B" = some mdB := by
  refine ⟨by decide, by decide, by decide, by decide, by decide⟩

/-- Witness for C2 (amended): package `A` is on disk, so its install
performs no I/O, and a concrete passed subtree check implies presence. -/
theorem c2_witness :
    ((installPackage wC2 5 "A" "^1.0.0" (initSt partialDisk)).1 = .ok "^1.0.0" ∧
      (installPackage wC2 5 "A" "^1.0.0" (initSt partialDisk)).2.events =
        (initSt partialDisk).events ∧
      (installPackage wC2 5 "A" "^1.0.0" (initSt partialDisk)).2.disk =
        (initSt partialDisk).disk) ∧
    (([("C", some [])] : List (String × Option (List (String × String)))).lookup "C").isSome :=
  ⟨c2_existing_dir_skips_all_io.1 wC2 4 "A" "^1.0.0" (initSt partialDisk) (by decide) (by decide),
    c2_existing_dir_skips_all_io.2 [("C", some [])] 4 "C" (by decide)⟩

/-! ## C10: the unchecked `Dist` type assertions -/

/-- C10: when the resolved version is missing from the `versions` map —
for example the `latest` dist-tag names an unpublished version —
`FetchPackageInfo` returns the zero-value `PackageInfo` (empty name,
version and dist) with a nil error, and `installPackage` then panics on
the unchecked `Dist["tarball"]` type assertion. -/
theorem c10_unpublished_version_panics (w : World) (fuel : Nat) (name range : String) (st : St)
    (md : Metadata) (vm : List (String × VersionInfo)) (v : String)
    (hreg : w.registry.lookup name = some md) (hres : resolveVersion md range = .ok v)
    (hvm : md.versions = some vm) (hlv : vm.lookup v = none)
    (hni : name ∉ st.installing) (hnv : name ∉ st.visited)
    (hnd : st.disk.lookup name = none) :
    FetchPackageInfo w.registry name range = .ok emptyPackageInfo ∧
    (installPackage w (fuel + 1) name range st).1 = .panicked := by
  have hF : FetchPackageInfo w.registry name range = .ok emptyPackageInfo := by
    simp only [FetchPackageInfo, hreg, hres, hvm, hlv]
  refine ⟨hF, ?_⟩
  simp only [installPackage, hni, if_false]
  simp only [installBody, hnv, if_false, hnd, Option.isSome_none, Bool.false_eq_true, hF]
  rfl

/-- Witness for C10: in world `wQ` the `latest` tag names the
unpublished `9.9.9`; the fetch returns the empty info and the installer
panics. -/
theorem c10_witness :
    FetchPackageInfo wQ.registry "q" "latest" = .ok emptyPackageInfo ∧
    (installPackage wQ 5 "q" "latest" (initSt [])).1 = .panicked :=
  c10_unpublished_version_panics wQ 4 "q" "latest" (initSt []) mdQ [] "9.9.9"
    (by decide) (by decide) rfl (by decide) (by decide) (by decide) (by decide)

end Fpm

namespace Fpm

/-! ## C7: concurrent duplicate requests for one name -/

/-- Disk-hit reduction of `installPackage` (helper shared by several
claims): an on-disk package returns the requested range with no events
and an unchanged tree. -/
theorem installPackage_disk_hit (w : World) (fuel : Nat) (name range : String) (st : St)
    (hni : name ∉ st.installing) (hdisk : (st.disk.lookup name).isSome) :
    (installPackage w (fuel + 1) name range st).1 = .ok range ∧
    (installPackage w (fuel + 1) name range st).2.events = st.events ∧
    (installPackage w (fuel + 1) name range st).2.disk = st.disk := by
  simp only [installPackage, hni, if_false]
  have h := installBody_no_fetch w (fun n v s => installPackage w fuel n v s) name range
    ⟨st.graph, name :: st.installing, st.visited, st.disk, st.events⟩ hdisk
  exact ⟨h.1, h.2.1, h.2.2⟩

/-- A download with the matching digest succeeds and yields the
destination path. -/
theorem downloadPackage_match (digest : List Nat → List Nat) (url sha dest : String)
    (body : List Nat) (hhash : hexLower (digest body) = sha) :
    DownloadPackage (.status 200 body) digest url sha dest = .ok (joinPath dest (baseName url)) := by
  simp only [DownloadPackage]
  rw [if_neg (by simp), if_neg (not_not_intro hhash)]

/-- Full reduction of a fresh, successful `installPackage` call: the
package is fetched, downloaded, extracted, its directory recorded on
disk, and its declared dependencies walked by the dependency loop; the
in-progress mark is removed on return. -/
theorem installPackage_reduce (w : World) (fuel : Nat) (name range : String) (st : St)
    (info : PackageInfo) (url sha : String) (body : List Nat) (entries : List TarEntry)
    (deps : List (String × String))
    (hni : name ∉ st.installing) (hnv : name ∉ st.visited) (hnd : st.disk.lookup name = none)
    (hreg : FetchPackageInfo w.registry name range = .ok info)
    (htar : info.dist.lookup "tarball" = some url)
    (hsha : info.dist.lookup "shasum" = some sha)
    (hhttp : w.http url = .status 200 body)
    (hhash : hexLower (w.digest body) = sha)
    (hentries : w.entriesOf url = some entries)
    (hok : entries.all okEntry = true)
    (hman : w.manifestOf url = some deps) :
    installPackage w (fuel + 1) name range st =
      (.ok info.version,
       { processPackageJson (fun n v s => installPackage w fuel n v s) name deps
           ⟨addVertexTol st.graph name, name :: st.installing, name :: st.visited,
            (name, some deps) :: st.disk,
            st.events ++ [.fetchInfo name, .download name url, .extract name]⟩ with
         installing :=
           (processPackageJson (fun n v s => installPackage w fuel n v s) name deps
             ⟨addVertexTol st.graph name, name :: st.installing, name :: st.visited,
              (name, some deps) :: st.disk,
              st.events ++ [.fetchInfo name, .download name url, .extract name]⟩).installing.erase
             name }) := by
  have hdl : DownloadPackage (w.http url) w.digest url sha "./node_modules" =
      .ok (joinPath "./node_modules" (baseName url)) := by
    rw [hhttp]
    exact downloadPackage_match w.digest url sha "./node_modules" body hhash
  have hex : (extractTarball (joinPath "./node_modules" (baseName url)) "./node_modules" name
      (w.entriesOf url) true).1 = .ok () := by
    rw [hentries]
    simp [extractTarball, extractEntries_ok_ops (joinPath "./node_modules" name) entries hok]
  simp only [installPackage, hni, if_false, installBody, hnv, hnd, Option.isSome_none,
    Bool.false_eq_true, hreg, htar, hsha, hdl, hex, hman]
  simp [List.append_assoc]

/-- The dependency-free specialisation of `installPackage_reduce`. -/
theorem installPackage_success (w : World) (fuel : Nat) (name range : String) (st : St)
    (info : PackageInfo) (url sha : String) (body : List Nat) (entries : List TarEntry)
    (hni : name ∉ st.installing) (hnv : name ∉ st.visited) (hnd : st.disk.lookup name = none)
    (hreg : FetchPackageInfo w.registry name range = .ok info)
    (htar : info.dist.lookup "tarball" = some url)
    (hsha : info.dist.lookup "shasum" = some sha)
    (hhttp : w.http url = .status 200 body)
    (hhash : hexLower (w.digest body) = sha)
    (hentries : w.entriesOf url = some entries)
    (hok : entries.all okEntry = true)
    (hman : w.manifestOf url = some []) :
    installPackage w (fuel + 1) name range st =
      (.ok info.version,
       ⟨addVertexTol st.graph name, st.installing, name :: st.visited,
        (name, some []) :: st.disk,
        st.events ++ [.fetchInfo name, .download name url, .extract name]⟩) := by
  rw [installPackage_reduce w fuel name range st info url sha body entries []
    hni hnv hnd hreg htar hsha hhttp hhash hentries hok hman]
  simp only [processPackageJson, List.erase_cons_head]

/-- C7 (amended): a second `installPackage` call for a name that is
currently in progress returns immediately with the *requested range*
and an unchanged state, so the downloader and extractor are not invoked
again; likewise, on the schedule where the first call completes before
the second starts, the second call hits the on-disk check — one download
and one extraction happen in total, but the two calls return different
strings: the first returns the resolved version, the second echoes the
requested range. -/
theorem c7_dedup_amended :
    (∀ (w : World) (fuel : Nat) (name range : String) (st : St), name ∈ st.installing →
        installPackage w (fuel + 1) name range st = (.ok range, st)) ∧
    (∀ range : String, resolveVersion mdP range = .ok "1.2.3" →
        (runInstallPackage wP 5 "p" range (initSt [])).1 = .ok "1.2.3" ∧
        (runInstallPackage wP 5 "p" range (runInstallPackage wP 5 "p" range (initSt [])).2).1 =
          .ok range ∧
        countDownloads (runInstallPackage wP 5 "p" range
            (runInstallPackage wP 5 "p" range (initSt [])).2).2.events "p" = 1 ∧
        countExtracts (runInstallPackage wP 5 "p" range
            (runInstallPackage wP 5 "p" range (initSt [])).2).2.events "p" = 1) := by
  constructor
  · intro w fuel name range st h
    simp only [installPackage, h, if_true]
  · intro range hres
    have hreg : FetchPackageInfo wP.registry "p" range =
        .ok ⟨"p", "1.2.3", [("tarball", "u"), ("shasum", "ab")]⟩ := by
      simp only [FetchPackageInfo, show List.lookup "p" wP.registry = some mdP from rfl]
      rw [show resolveVersion mdP range = .ok "1.2.3" from hres]
      decide
    have h1 : runInstallPackage wP 5 "p" range (initSt []) =
        (.ok "1.2.3", ⟨addVertexTol emptyGraph "p", [], ["p"], [("p", some [])],
          [.fetchInfo "p", .download "p" "u", .extract "p"]⟩) := by
      have h := installPackage_success wP 4 "p" range (initSt [])
        ⟨"p", "1.2.3", [("tarball", "u"), ("shasum", "ab")]⟩ "u" "ab" [171] []
        (by decide) (by decide) (by decide) hreg (by decide) (by decide) rfl (by decide) rfl
        (by decide) rfl
      exact h
    have h2 := installPackage_disk_hit wP 4 "p" range
      ⟨addVertexTol emptyGraph "p", [], [], [("p", some [])],
       [.fetchInfo "p", .download "p" "u", .extract "p"]⟩ (by decide) (by decide)
    have h2a : (runInstallPackage wP 5 "p" range
        (⟨addVertexTol emptyGraph "p", [], ["p"], [("p", some [])],
          [.fetchInfo "p", .download "p" "u", .extract "p"]⟩ : St)).1 = .ok range := h2.1
    have h2b : (runInstallPackage wP 5 "p" range
        (⟨addVertexTol emptyGraph "p", [], ["p"], [("p", some [])],
          [.fetchInfo "p", .download "p" "u", .extract "p"]⟩ : St)).2.events =
        [.fetchInfo "p", .download "p" "u", .extract "p"] := h2.2.1
    refine ⟨by rw [h1], ?_, ?_, ?_⟩
    · rw [h1]
      exact h2a
    · rw [h1, h2b]
      decide
    · rw [h1, h2b]
      decide

/-- C7 (counterexample): two sequential calls of one run for the same
name and range: the downloader and extractor run once, but the first
call returns `1.2.3` while the second returns the verbatim range
`^1.0.0` — not the same resolved version. -/
theorem c7_counterexample :
    (runInstallPackage wP 5 "p" "^1.0.0" (initSt [])).1 = .ok "1.2.3" ∧
    (runInstallPackage wP 5 "p" "^1.0.0"
        (runInstallPackage wP 5 "p" "^1.0.0" (initSt [])).2).1 = .ok "^1.0.0" ∧
    countDownloads (runInstallPackage wP 5 "p" "^1.0.0"
        (runInstallPackage wP 5 "p" "^1.0.0" (initSt [])).2).2.events "p" = 1 ∧
    countExtracts (runInstallPackage wP 5 "p" "^1.0.0"
        (runInstallPackage wP 5 "p" "^1.0.0" (initSt [])).2).2.events "p" = 1 ∧
    ("1.2.3" : String) ≠ "^1.0.0" := by
  refine ⟨by decide, by decide, by decide, by decide, by decide⟩

/-- Witness for C7 (amended): the in-progress guard returns the range
verbatim on a concrete state, and the sequential schedule instance runs
at range `^1.0.0`. -/
theorem c7_witness :
    installPackage wP 5 "p" "^2.0.0" ⟨emptyGraph, ["p"], [], [], []⟩ =
      (.ok "^2.0.0", ⟨emptyGraph, ["p"], [], [], []⟩) ∧
    (runInstallPackage wP 5 "p" "^1.0.0" (initSt [])).1 = .ok "1.2.3" :=
  ⟨c7_dedup_amended.1 wP 4 "p" "^2.0.0" ⟨emptyGraph, ["p"], [], [], []⟩ (by decide),
    (c7_dedup_amended.2 "^1.0.0" (by decide)).1⟩

end Fpm

namespace Fpm

/-! ## C6: name-level dependency cycles terminate -/

/-- C6: for any two distinct package names whose manifests declare a
dependency cycle (each depends on the other), one install run
terminates — already with fuel 3, so the recursion is bounded and never
revisits a name — returning the resolved version of the root, and each
of the two packages is downloaded and extracted exactly once. -/
theorem c6_cycle_installs_once (a b : String) (hab : a ≠ b) :
    (runInstallPackage (cycWorld a b) 3 a "latest" (initSt [])).1 = .ok "1.0.0" ∧
    countDownloads (runInstallPackage (cycWorld a b) 3 a "latest" (initSt [])).2.events a = 1 ∧
    countDownloads (runInstallPackage (cycWorld a b) 3 a "latest" (initSt [])).2.events b = 1 ∧
    countExtracts (runInstallPackage (cycWorld a b) 3 a "latest" (initSt [])).2.events a = 1 ∧
    countExtracts (runInstallPackage (cycWorld a b) 3 a "latest" (initSt [])).2.events b = 1 := by
  have hba : b ≠ a := hab.symm
  have hbeq_ab : (a == b) = false := beq_eq_false_iff_ne.2 hab
  have hbeq_ba : (b == a) = false := beq_eq_false_iff_ne.2 hba
  have hregA : FetchPackageInfo (cycWorld a b).registry a "latest" =
      .ok ⟨a, "1.0.0", [("tarball", "ua"), ("shasum", "ab")]⟩ := by
    have hlk : List.lookup a (cycWorld a b).registry =
        some ⟨some [("latest", "1.0.0")],
          some [("1.0.0", ⟨a, "1.0.0", [("tarball", "ua"), ("shasum", "ab")]⟩)]⟩ := by
      simp [cycWorld, List.lookup]
    simp only [FetchPackageInfo, hlk]
    rfl
  have hregB : FetchPackageInfo (cycWorld a b).registry b "latest" =
      .ok ⟨b, "2.0.0", [("tarball", "ub"), ("shasum", "ab")]⟩ := by
    have hlk : List.lookup b (cycWorld a b).registry =
        some ⟨some [("latest", "2.0.0")],
          some [("2.0.0", ⟨b, "2.0.0", [("tarball", "ub"), ("shasum", "ab")]⟩)]⟩ := by
      simp [cycWorld, List.lookup, hbeq_ba]
    simp only [FetchPackageInfo, hlk]
    rfl
  have hAV_a : addVertexTol emptyGraph a = ⟨[a], []⟩ := by
    simp [addVertexTol, addVertex, emptyGraph]
  have hAV_b : addVertexTol ⟨[a], []⟩ b = ⟨[b, a], []⟩ := by
    simp [addVertexTol, addVertex, hba]
  have hreach1 : reachableB ([] : List (String × String)) b a = false := by
    simp [reachableB, reachBound, iterN, stepSet, hab]
  have hAE_ab : addEdge ⟨[b, a], []⟩ a b = .ok ⟨[b, a], [(a, b)]⟩ := by
    simp [addEdge, hreach1, hab, hba]
  have hAVb2 : addVertexTol ⟨[b, a], [(a, b)]⟩ b = ⟨[b, a], [(a, b)]⟩ := by
    simp [addVertexTol, addVertex]
  have hAVa2 : addVertexTol ⟨[b, a], [(a, b)]⟩ a = ⟨[b, a], [(a, b)]⟩ := by
    simp [addVertexTol, addVertex]
  have hAE_ba : addEdge ⟨[b, a], [(a, b)]⟩ b a = .error .edgeCreatesCycle := by
    refine addEdge_cycle (by simp) (by simp) (by simp [hba, hab]) ?_
    exact Relation.ReflTransGen.single (by simp [edgeRel])
  have hA := installPackage_reduce (cycWorld a b) 2 a "latest" (initSt [])
    ⟨a, "1.0.0", [("tarball", "ua"), ("shasum", "ab")]⟩ "ua" "ab" [171] [] [(b, "latest")]
    (by simp [initSt]) (by simp [initSt]) rfl hregA rfl rfl rfl rfl rfl rfl rfl
  have hB := installPackage_reduce (cycWorld a b) 1 b "latest"
    ⟨⟨[b, a], [(a, b)]⟩, [a], [a], [(a, some [(b, "latest")])],
     [.fetchInfo a, .download a "ua", .extract a]⟩
    ⟨b, "2.0.0", [("tarball", "ub"), ("shasum", "ab")]⟩ "ub" "ab" [171] [] [(a, "latest")]
    (by simp [hba]) (by simp [hba]) (by simp [List.lookup, hbeq_ba]) hregB rfl rfl rfl
    rfl rfl rfl rfl
  have hrun : runInstallPackage (cycWorld a b) 3 a "latest" (initSt []) =
      (.ok "1.0.0", ⟨⟨[b, a], [(a, b)]⟩, [], [b, a],
        [(b, some [(a, "latest")]), (a, some [(b, "latest")])],
        [.fetchInfo a, .download a "ua", .extract a,
         .fetchInfo b, .download b "ub", .extract b]⟩) := by
    show installPackage (cycWorld a b) 3 a "latest"
        { initSt [] with visited := [] } = _
    rw [show ({ initSt [] with visited := [] } : St) = initSt [] from rfl, hA]
    simp only [initSt]
    rw [hAV_a]
    simp only [processPackageJson, List.nil_append]
    rw [hAV_b, hAE_ab]
    simp only []
    rw [hB]
    simp only [processPackageJson]
    rw [hAVb2, hAVa2, hAE_ba]
    simp only [processPackageJson, List.erase_cons_head]
    simp [List.erase_cons_head]
  rw [hrun]
  refine ⟨rfl, ?_, ?_, ?_, ?_⟩ <;>
    simp [countDownloads, countExtracts, List.countP_cons, hbeq_ab, hbeq_ba]

/-- Witness for C6: the concrete cyclic pair `A`/`B` installs each
package exactly once and terminates. -/
theorem c6_witness :
    (runInstallPackage (cycWorld "A" "B") 3 "A" "latest" (initSt [])).1 = .ok "1.0.0" ∧
    countDownloads (runInstallPackage (cycWorld "A" "B") 3 "A" "latest" (initSt [])).2.events
      "A" = 1 ∧
    countDownloads (runInstallPackage (cycWorld "A" "B") 3 "A" "latest" (initSt [])).2.events
      "B" = 1 ∧
    countExtracts (runInstallPackage (cycWorld "A" "B") 3 "A" "latest" (initSt [])).2.events
      "A" = 1 ∧
    countExtracts (runInstallPackage (cycWorld "A" "B") 3 "A" "latest" (initSt [])).2.events
      "B" = 1 :=
  c6_cycle_installs_once "A" "B" (by decide)

end Fpm
